import Mathlib

/-!
Verification of the ELP image-server core (Go) against its specification.

The Go sources are shallowly embedded: `image.Rectangle` becomes `GoRect`
over `ℤ` (Go `int` arithmetic never overflows at image scales), `image.Gray`
becomes `GrayImage`, and the handler's tiling / stitching arithmetic from
`cmd/server/main.go` is transcribed literally, including the
canonicalisation performed by `image.Rect`, the clipping performed by
`SubImage` and `draw.Draw`, and the sort of the Canny chunks by their
rectangle's `Min.Y`.
-/

namespace ELP

/-- Go `image.Rectangle`: the half-open box `[minX, maxX) x [minY, maxY)`. -/
structure GoRect where
  minX : ℤ
  minY : ℤ
  maxX : ℤ
  maxY : ℤ
deriving DecidableEq

/-- Go's zero `image.Rectangle` (`image.ZR`). -/
def GoRect.zero : GoRect := ⟨0, 0, 0, 0⟩

/-- Go `Rectangle.Empty()`: `Min.X >= Max.X || Min.Y >= Max.Y`. -/
def GoRect.isEmpty (r : GoRect) : Prop := r.maxX ≤ r.minX ∨ r.maxY ≤ r.minY

instance (r : GoRect) : Decidable r.isEmpty := by
  unfold GoRect.isEmpty
  infer_instance

/-- Go `image.Rect(x0, y0, x1, y1)`: swaps the coordinates on each axis when
they are out of order, so the result is always canonical. -/
def mkRect (x0 y0 x1 y1 : ℤ) : GoRect :=
  ⟨if x0 ≤ x1 then x0 else x1, if y0 ≤ y1 then y0 else y1,
   if x0 ≤ x1 then x1 else x0, if y0 ≤ y1 then y1 else y0⟩

/-- Go `Rectangle.Intersect`: componentwise max of mins and min of maxes,
collapsed to the zero rectangle when empty. -/
def GoRect.intersect (r s : GoRect) : GoRect :=
  let t : GoRect := ⟨max r.minX s.minX, max r.minY s.minY, min r.maxX s.maxX, min r.maxY s.maxY⟩
  if t.isEmpty then GoRect.zero else t

/-- Go `Rectangle.Add`: translation by a point. -/
def GoRect.add (r : GoRect) (dx dy : ℤ) : GoRect :=
  ⟨r.minX + dx, r.minY + dy, r.maxX + dx, r.maxY + dy⟩

/-- Go `Rectangle.Dy()`. -/
def GoRect.dy (r : GoRect) : ℤ := r.maxY - r.minY

/-- Membership of the pixel `(x, y)` in a rectangle. -/
def GoRect.mem (r : GoRect) (x y : ℤ) : Prop :=
  r.minX ≤ x ∧ x < r.maxX ∧ r.minY ≤ y ∧ y < r.maxY

instance (r : GoRect) (x y : ℤ) : Decidable (r.mem x y) := by
  unfold GoRect.mem
  infer_instance

/-!
Tiling of the input image into row bands, from `handleConnection` in
`cmd/server/main.go`:

    chunkSize := (totalRows + server.numWorkers - 1) / server.numWorkers
    for i := 0; i < server.numWorkers; i++ {
      startY := bounds.Min.Y + i*chunkSize
      endY := startY + chunkSize + overlapSize
      if startY > overlapSize { startY -= overlapSize }
      if endY > bounds.Max.Y { endY = bounds.Max.Y }
      subBounds := image.Rect(bounds.Min.X, startY, bounds.Max.X, endY)
      subImage := rgbaImg.SubImage(subBounds)
      ... }

with `overlapSize = 20`.  Go `/` on `int` truncates toward zero, which is
`Int.div` in Lean.
-/

/-- Rows per worker: `(totalRows + numWorkers - 1) / numWorkers` (Go `int`
division, truncation toward zero). -/
def chunkSize (totalRows numWorkers : ℤ) : ℤ :=
  Int.tdiv (totalRows + numWorkers - 1) numWorkers

/-- Nominal start row of band `i`: `bounds.Min.Y + i*chunkSize`. -/
def bandStartRaw (minY h : ℤ) (i : ℕ) : ℤ := minY + i * h

/-- Start row after the overlap adjustment `if startY > overlapSize { startY -= overlapSize }`. -/
def bandStart (minY h : ℤ) (i : ℕ) : ℤ :=
  if 20 < bandStartRaw minY h i then bandStartRaw minY h i - 20 else bandStartRaw minY h i

/-- End row `startY + chunkSize + overlapSize`, computed from the unadjusted
start and then clamped to `bounds.Max.Y`. -/
def bandEnd (minY maxY h : ℤ) (i : ℕ) : ℤ :=
  if maxY < bandStartRaw minY h i + h + 20 then maxY else bandStartRaw minY h i + h + 20

/-- The `image.Rect` passed to `SubImage` for band `i`. -/
def subBounds (bounds : GoRect) (h : ℤ) (i : ℕ) : GoRect :=
  mkRect bounds.minX (bandStart bounds.minY h i) bounds.maxX (bandEnd bounds.minY bounds.maxY h i)

/-- The rectangle of the sub-image for band `i`: `SubImage` intersects the
requested rectangle with the parent's.  `Grayscale` and every stage of
`ApplyCannyEdgeDetection` allocate their output with `image.NewGray` on the
input's bounds, so this is also the rectangle of the Canny chunk that comes
back to the handler. -/
def chunkRect (bounds : GoRect) (h : ℤ) (i : ℕ) : GoRect :=
  (subBounds bounds h i).intersect bounds

/-- Insertion into a list sorted by `minY`. -/
def insertByMinY (r : GoRect) : List GoRect → List GoRect
  | [] => [r]
  | s :: t => if r.minY ≤ s.minY then r :: s :: t else s :: insertByMinY r t

/-- The handler's `sort.Slice(results, ... Rect.Min.Y < ...)`, modelled as an
insertion sort.  `sort.Slice` fixes no order between chunks with equal
`Min.Y`; such ties never occur in the theorems below. -/
def sortByMinY : List GoRect → List GoRect
  | [] => []
  | r :: t => insertByMinY r (sortByMinY t)

/-- The region of the stitched edge map written for the sorted chunk at
position `i`:

    startY := bounds.Min.Y + i*chunkSize
    chunkHeight := chunk.Rect.Dy() - overlapSize
    draw.Draw(cannyImage, image.Rect(bounds.Min.X, startY, bounds.Max.X, startY+chunkHeight),
              chunk, image.Point{X: bounds.Min.X, Y: startY}, draw.Src)

`draw.Draw` clips the requested rectangle `r0` first to the destination's
bounds and then to the source chunk's bounds translated by `r0.Min - sp`
with `sp = (bounds.Min.X, startY)`. -/
def stitchDrawn (bounds : GoRect) (h : ℤ) (chunks : List GoRect) (i : ℕ) : GoRect :=
  let chunk := chunks.getD i GoRect.zero
  let startY := bounds.minY + i * h
  let r0 := mkRect bounds.minX startY bounds.maxX (startY + (chunk.dy - 20))
  let r1 := r0.intersect bounds
  r1.intersect (chunk.add (r0.minX - bounds.minX) (r0.minY - startY))

/-- The Canny chunk rectangles sorted by `Min.Y`, as the handler sees them
just before stitching. -/
def cannyChunks (bounds : GoRect) (nw : ℕ) : List GoRect :=
  sortByMinY ((List.range nw).map (chunkRect bounds (chunkSize (bounds.maxY - bounds.minY) nw)))

/-- All regions of the stitched edge map written by the stitching loop. -/
def stitchedRegions (bounds : GoRect) (nw : ℕ) : List GoRect :=
  (List.range nw).map (stitchDrawn bounds (chunkSize (bounds.maxY - bounds.minY) nw) (cannyChunks bounds nw))

/-- A pixel is covered when some rectangle of the list contains it. -/
def coveredBy (l : List GoRect) (x y : ℤ) : Prop := ∃ r ∈ l, r.mem x y

instance (l : List GoRect) (x y : ℤ) : Decidable (coveredBy l x y) := by
  unfold coveredBy
  infer_instance

/-- The band layout exactly as claim C2 states it: the nominal row range
clamped to `maxY`, extended upward by 20 rows except for the first band and
never extended below the nominal range.  Written from the claim's words, to
be compared with `chunkRect`. -/
def claimedBandRect (bounds : GoRect) (h : ℤ) (i : ℕ) : GoRect :=
  ⟨bounds.minX,
   if i = 0 then bandStartRaw bounds.minY h i else bandStartRaw bounds.minY h i - 20,
   bounds.maxX,
   min (bandStartRaw bounds.minY h (i + 1)) bounds.maxY⟩

/-!
Images.  Go `image.Gray` is a rectangle plus one byte per pixel;
`GrayAt` returns the zero value outside the rectangle and `SetGray` ignores
writes outside it.  The images handled by the claims below (the decoded
input, the stitched edge map, images fed to `hysteresisThresholding` and
`FindContoursBFS`) have bounds `[0, w) x [0, h)`; the rectangle is therefore
represented by its width and height.
-/

/-- Go `image.Gray` with bounds `[0, w) x [0, h)`. -/
structure GrayImage where
  w : ℕ
  h : ℕ
  pix : ℤ → ℤ → ℕ

/-- Whether `(x, y)` lies inside the image rectangle. -/
def GrayImage.inBounds (img : GrayImage) (x y : ℤ) : Prop :=
  0 ≤ x ∧ x < img.w ∧ 0 ≤ y ∧ y < img.h

instance (img : GrayImage) (x y : ℤ) : Decidable (img.inBounds x y) := by
  unfold GrayImage.inBounds
  infer_instance

/-- Go `Gray.GrayAt(x, y).Y`: the stored byte inside the rectangle, 0 outside. -/
def grayAt (img : GrayImage) (x y : ℤ) : ℕ :=
  if img.inBounds x y then img.pix x y else 0

/-!
Grayscale conversion, from `internal/imageUtils/grayScale.go`:

    r, g, b, _ := img.At(x, y).RGBA()
    r8, g8, b8 := r>>8, g>>8, b>>8
    grayValue := uint8(0.299*float64(r8) + 0.587*float64(g8) + 0.114*float64(b8))

The float64 arithmetic is IEEE-754 binary64 with one round-to-nearest
(ties to even) per operation: the literals denote the binary64 values
nearest 0.299, 0.587 and 0.114, each product and each of the two
(left-associated) additions rounds once, and `uint8` truncates the
non-negative result toward zero.  Every value arising here lies in
`[2^-4, 2^9) ∪ {0}`, where consecutive binary64 values are `2^-56` apart
or closer, so each is represented exactly as an integer multiple of
`2^-60`; `roundScaled a b` below rounds the rational `a / b` to binary64
and returns that multiple, i.e. the value scaled by `2^60`.
-/

/-- Floor of the base-2 logarithm, by structural recursion on a fuel
argument (the arguments used here are all below `2^64`). -/
def floorLog2Aux : ℕ → ℕ → ℕ
  | 0, _ => 0
  | fuel + 1, n => if n ≤ 1 then 0 else floorLog2Aux fuel (n / 2) + 1

/-- Floor of the base-2 logarithm of a positive number below `2^64`. -/
def floorLog2 (n : ℕ) : ℕ := floorLog2Aux 64 n

/-- The nearest integer to `num / b`, ties going to the even neighbour. -/
def roundHalfEven (num b : ℕ) : ℕ :=
  if 2 * (num % b) < b then num / b
  else if b < 2 * (num % b) then num / b + 1
  else if num / b % 2 = 0 then num / b else num / b + 1

/-- binary64 rounding of the rational `a / b` (round to nearest, ties to
even), returned scaled by `2^60`: the significand has 53 bits, so the
rounded value is the nearest multiple of `2^(e-52)` where `2^e <= a/b <
2^(e+1)`.  Exact for `a / b` in `[2^-10, 2^52)` and for 0. -/
def roundScaled (a b : ℕ) : ℕ :=
  if a = 0 then 0
  else
    let ep := floorLog2 (a * 1024 / b)
    roundHalfEven (a * 2 ^ (62 - ep)) b * 2 ^ (ep - 2)

/-- The binary64 value of the Go literal `0.299`, scaled by `2^60`. -/
def c299 : ℕ := roundScaled 299 1000

/-- The binary64 value of the Go literal `0.587`, scaled by `2^60`. -/
def c587 : ℕ := roundScaled 587 1000

/-- The binary64 value of the Go literal `0.114`, scaled by `2^60`. -/
def c114 : ℕ := roundScaled 114 1000

/-- One pixel of `Grayscale`: the 16-bit channel values are shifted down to
their high bytes (`float64` of which is exact), each product with a weight
rounds once, the two additions round once each in left-associated order,
and `uint8` truncates toward zero.  All values are carried scaled by
`2^60`. -/
def grayValue (r g b : ℕ) : ℕ :=
  roundScaled
      (roundScaled
          (roundScaled (c299 * (r >>> 8)) (2 ^ 60) +
            roundScaled (c587 * (g >>> 8)) (2 ^ 60)) (2 ^ 60) +
        roundScaled (c114 * (b >>> 8)) (2 ^ 60)) (2 ^ 60) / 2 ^ 60

/-- An RGBA image as the grayscale stage reads it: `rgba x y` is the triple
of 16-bit red, green, blue channel values returned by `At(x, y).RGBA()`
(alpha is ignored by `Grayscale`). -/
structure RGBAImage where
  w : ℕ
  h : ℕ
  rgba : ℤ → ℤ → ℕ × ℕ × ℕ

/-- `Grayscale`: a fresh gray image of the same bounds whose every pixel is
`grayValue` of the source pixel. -/
def Grayscale (img : RGBAImage) : GrayImage :=
  ⟨img.w, img.h, fun x y =>
    grayValue (img.rgba x y).1 (img.rgba x y).2.1 (img.rgba x y).2.2⟩

/-- The per-pixel formula exactly as claim C3 states it:
`((299*R + 587*G + 114*B) / 1000) >> 8` on the 16-bit channel values, integer
division then right shift.  Written from the claim, for comparison with
`grayValue`. -/
def claimedGrayValue (r g b : ℕ) : ℕ :=
  ((299 * r + 587 * g + 114 * b) / 1000) >>> 8

/-!
Hysteresis thresholding, from `internal/utils/canny.go`.  The images this
stage receives are band sub-images whose `Rect.Min.Y` is positive for every
band after the first, so the gray images here carry an arbitrary bounds
rectangle.  Pass 1 labels every pixel of the bounds strong (255), weak (75)
or 0.  Pass 2 runs over the literal ranges `y := 1; y < bounds.Max.Y-1` and
`x := 1; x < bounds.Max.X-1` — it starts at 1 whatever `Rect.Min` is — and
mutates the output in place: a pixel currently equal to 75 becomes 255 when
some 8-neighbour is currently 255, else 0.  Reads outside the rectangle
yield 0 and writes outside it are no-ops, exactly as `GrayAt` / `SetGray`
behave, so visiting a coordinate outside the rectangle does nothing.  The
float64 thresholds are modelled as rationals; `float64(pixel) >= threshold`
compares a small integer with the threshold and is exact.
-/

/-- Go `image.Gray` with an arbitrary bounds rectangle, as the Canny band
sub-images carry ( `GrayImage` above is the zero-origin special case used
by the stages whose inputs are full images). -/
structure GraySub where
  rect : GoRect
  pix : ℤ → ℤ → ℕ

/-- Go `Gray.GrayAt(x, y).Y` on a sub-image: the stored byte inside the
rectangle, 0 outside. -/
def GraySub.grayAt (img : GraySub) (x y : ℤ) : ℕ :=
  if img.rect.mem x y then img.pix x y else 0

/-- Go `Gray.SetGray(x, y, v)` on a sub-image: writes inside the rectangle,
no-op outside. -/
def GraySub.setGray (img : GraySub) (x y : ℤ) (v : ℕ) : GraySub :=
  if img.rect.mem x y then
    ⟨img.rect, fun a b => if a = x ∧ b = y then v else img.pix a b⟩
  else img

/-- Pass 1 of `hysteresisThresholding`: strong / weak / zero labels.  The Go
code allocates `image.NewGray(bounds)` and writes every pixel of the bounds,
so the result is this per-pixel image over the same rectangle. -/
def hystPass1 (img : GraySub) (low high : ℚ) : GraySub :=
  ⟨img.rect, fun x y =>
    if high ≤ (img.grayAt x y : ℚ) then 255
    else if low ≤ (img.grayAt x y : ℚ) then 75
    else 0⟩

/-- The neighbour offsets of `isConnectedToStrong`, in source order. -/
def strongDirections : List (ℤ × ℤ) :=
  [(-1, -1), (-1, 0), (-1, 1), (0, -1), (0, 1), (1, -1), (1, 0), (1, 1)]

/-- Go `isConnectedToStrong`: some 8-neighbour reads as 255. -/
def isConnectedToStrong (img : GraySub) (x y : ℤ) : Prop :=
  ∃ d ∈ strongDirections, img.grayAt (x + d.1) (y + d.2) = 255

instance (img : GraySub) (x y : ℤ) : Decidable (isConnectedToStrong img x y) := by
  unfold isConnectedToStrong
  infer_instance

/-- One iteration of pass 2 at a pixel, mutating the output image. -/
def hystPass2Step (st : GraySub) (p : ℤ × ℤ) : GraySub :=
  if st.grayAt p.1 p.2 = 75 then
    if isConnectedToStrong st p.1 p.2 then st.setGray p.1 p.2 255
    else st.setGray p.1 p.2 0
  else st

/-- The coordinates visited by pass 2, in loop order: `y` from 1 to
`Max.Y - 2` outer, `x` from 1 to `Max.X - 2` inner.  `Rect.Min` does not
appear: the loops start at the literal 1. -/
def pass2Coords (maxX maxY : ℤ) : List (ℤ × ℤ) :=
  (List.range (maxY - 2).toNat).flatMap fun (j : ℕ) =>
    (List.range (maxX - 2).toNat).map fun (i : ℕ) => (((i : ℤ) + 1, ((j : ℤ) + 1)) : ℤ × ℤ)

/-- Go `hysteresisThresholding`: pass 1 then the in-place pass 2 sweep. -/
def hysteresisThresholding (img : GraySub) (low high : ℚ) : GraySub :=
  (pass2Coords img.rect.maxX img.rect.maxY).foldl hystPass2Step (hystPass1 img low high)

/-!
Contour extraction, from `internal/utils/BFS.go` with
`imageUtils.IsWhite`.  `FindContoursBFS(img, bounds)` scans the pixels of
the region rectangle in row-major order; every white unvisited pixel starts
a breadth-first search over the shared `visited` map.  The BFS expansion
tests only `IsWhite` and `visited` — it is not restricted to the region —
and components of at most 50 points are dropped.
-/

/-- Go `imageUtils.IsWhite`: the pixel reads strictly above 128. -/
def IsWhite (img : GrayImage) (x y : ℤ) : Prop := 128 < grayAt img x y

instance (img : GrayImage) (x y : ℤ) : Decidable (IsWhite img x y) := by
  unfold IsWhite
  infer_instance

/-- The eight neighbour offsets of the BFS, in source order. -/
def bfsDirections : List (ℤ × ℤ) :=
  [(0, 1), (1, 0), (0, -1), (-1, 0), (-1, -1), (-1, 1), (1, -1), (1, 1)]

/-- The grid points of the image rectangle, as a finite set. -/
def boundsFinset (w h : ℕ) : Finset (ℤ × ℤ) :=
  ((Finset.range w) ×ˢ (Finset.range h)).image fun p => (((p.1 : ℤ), (p.2 : ℤ)) : ℤ × ℤ)

/-- The white points of an image, as a finite set (used as the termination
measure of the BFS: every enqueued point is white, hence in this set). -/
def whiteFinset (img : GrayImage) : Finset (ℤ × ℤ) :=
  (boundsFinset img.w img.h).filter fun p => IsWhite img p.1 p.2

/-- `q` is one of the eight neighbours of `p`. -/
def Adjacent (p q : ℤ × ℤ) : Prop := (q.1 - p.1, q.2 - p.2) ∈ bfsDirections

instance (p q : ℤ × ℤ) : Decidable (Adjacent p q) := by
  unfold Adjacent
  infer_instance

/-- One step of white connectivity: `q` is white and adjacent to `p`. -/
def WStep (img : GrayImage) (p q : ℤ × ℤ) : Prop := IsWhite img q.1 q.2 ∧ Adjacent p q

/-- `q` belongs to the connected component grown from `p` (reflexive
transitive closure of `WStep`). -/
def Reaches (img : GrayImage) (p q : ℤ × ℤ) : Prop := Relation.ReflTransGen (WStep img) p q

/-- The Go BFS inner loop.  The queue is popped at the head; a visited point
is skipped; otherwise the point is marked visited, appended to the contour,
and its white unvisited neighbours are pushed at the tail (the visited map
already contains the current point, as in the source).  The invariant that
every queued point is white makes the loop terminate: each round either
consumes a white unvisited point or shortens the queue. -/
def bfsLoop (img : GrayImage) (queue : List (ℤ × ℤ)) (visited : Finset (ℤ × ℤ))
    (contour : List (ℤ × ℤ)) (hq : ∀ p ∈ queue, IsWhite img p.1 p.2) :
    List (ℤ × ℤ) × Finset (ℤ × ℤ) :=
  match queue, hq with
  | [], _ => (contour, visited)
  | curr :: rest, hq =>
    if hv : curr ∈ visited then
      bfsLoop img rest visited contour fun p hp => hq p (List.mem_cons_of_mem _ hp)
    else
      bfsLoop img
        (rest ++ bfsDirections.filterMap fun d =>
          if IsWhite img (curr.1 + d.1) (curr.2 + d.2) ∧
              (curr.1 + d.1, curr.2 + d.2) ∉ insert curr visited then
            some (curr.1 + d.1, curr.2 + d.2)
          else none)
        (insert curr visited) (contour ++ [curr])
        (by
          intro p hp
          rcases List.mem_append.mp hp with h1 | h2
          · exact hq p (List.mem_cons_of_mem _ h1)
          · obtain ⟨d, hd, hsome⟩ := List.mem_filterMap.mp h2
            by_cases hcond : IsWhite img (curr.1 + d.1) (curr.2 + d.2) ∧
                (curr.1 + d.1, curr.2 + d.2) ∉ insert curr visited
            · rw [if_pos hcond] at hsome
              rw [← Option.some_inj.mp hsome]
              exact hcond.1
            · rw [if_neg hcond] at hsome
              exact absurd hsome (by simp))
termination_by ((whiteFinset img \ visited).card, queue.length)
decreasing_by
  · apply Prod.Lex.right
    simp
  · apply Prod.Lex.left
    have hwhite : curr ∈ whiteFinset img := by
      unfold whiteFinset boundsFinset
      have hiw : IsWhite img curr.1 curr.2 := hq curr (List.mem_cons_self _ _)
      have hb : img.inBounds curr.1 curr.2 := by
        unfold IsWhite grayAt at hiw
        by_contra hn
        rw [if_neg hn] at hiw
        omega
      unfold GrayImage.inBounds at hb
      refine Finset.mem_filter.mpr ⟨?_, hiw⟩
      refine Finset.mem_image.mpr ⟨(curr.1.toNat, curr.2.toNat), ?_, ?_⟩
      · rw [Finset.mem_product]
        constructor <;> rw [Finset.mem_range] <;> omega
      · rw [Prod.mk.injEq]
        constructor <;> omega
    have hsub : whiteFinset img \ insert curr visited ⊆ whiteFinset img \ visited := by
      intro a ha
      rw [Finset.mem_sdiff] at ha ⊢
      rw [Finset.mem_insert] at ha
      exact ⟨ha.1, fun hm => ha.2 (Or.inr hm)⟩
    refine Finset.card_lt_card ((Finset.ssubset_iff_of_subset hsub).mpr ⟨curr, ?_, ?_⟩)
    · exact Finset.mem_sdiff.mpr ⟨hwhite, hv⟩
    · rw [Finset.mem_sdiff]
      intro hcontra
      exact hcontra.2 (Finset.mem_insert_self _ _)

/-- Integer interval `[a, b)` as a list, in increasing order. -/
def intRange (a b : ℤ) : List ℤ :=
  (List.range (b - a).toNat).map fun (k : ℕ) => a + (k : ℤ)

/-- The pixels of the region scanned by the double loop of
`FindContoursBFS`, in row-major order (`y` outer, `x` inner). -/
def scanCoords (r : GoRect) : List (ℤ × ℤ) :=
  (intRange r.minY r.maxY).flatMap fun (y : ℤ) =>
    (intRange r.minX r.maxX).map fun (x : ℤ) => ((x, y) : ℤ × ℤ)

/-- One iteration of the scan: a white pixel not yet visited starts a BFS;
the resulting component is kept when it has more than 50 points. -/
def scanStep (img : GrayImage) (st : Finset (ℤ × ℤ) × List (List (ℤ × ℤ))) (p : ℤ × ℤ) :
    Finset (ℤ × ℤ) × List (List (ℤ × ℤ)) :=
  if h : IsWhite img p.1 p.2 ∧ p ∉ st.1 then
    let r := bfsLoop img [p] st.1 []
      (by
        intro q hqmem
        rw [List.mem_singleton] at hqmem
        rw [hqmem]
        exact h.1)
    (r.2, if 50 < r.1.length then st.2 ++ [r.1] else st.2)
  else st

/-- Go `FindContoursBFS(img, bounds)`: scan the region, returning the kept
contours in discovery order. -/
def FindContoursBFS (img : GrayImage) (region : GoRect) : List (List (ℤ × ℤ)) :=
  ((scanCoords region).foldl (scanStep img) (∅, [])).2

/-- The region rectangle handed to the Tile-Contours worker for band `i`:

    startY := bounds.Min.Y + i*chunkSize
    endY := startY + chunkSize
    if endY > bounds.Max.Y { endY = bounds.Max.Y }
    rect := image.Rect(bounds.Min.X, startY, bounds.Max.X, endY)

non-overlapping nominal bands of the stitched edge map. -/
def contourBandRect (bounds : GoRect) (h : ℤ) (i : ℕ) : GoRect :=
  mkRect bounds.minX (bandStartRaw bounds.minY h i) bounds.maxX
    (if bounds.maxY < bandStartRaw bounds.minY h i + h then bounds.maxY
     else bandStartRaw bounds.minY h i + h)

/-- The Tile-Contours stage: one `FindContoursBFS` call per band, all on the
shared stitched edge map, each with its own fresh `visited` map; the handler
appends the per-band results into one flat list.  (The handler receives the
band results in completion order; the counting statements below are
insensitive to the order of the blocks.) -/
def TileContours (img : GrayImage) (bounds : GoRect) (nw : ℕ) : List (List (ℤ × ℤ)) :=
  (List.range nw).flatMap fun i =>
    FindContoursBFS img (contourBandRect bounds (chunkSize (bounds.maxY - bounds.minY) nw) i)

/-!
Quadrilateral selection, from `internal/utils/findQuadrilateral.go`, and
corner computation, from `internal/utils/findCorner.go`.  `polygonArea`
accumulates `float64(x_i*y_j - x_j*y_i)` and returns `|sum|/2`; at image
scales the integer terms and partial sums stay far below 2^53, so the
float64 arithmetic is exact and is modelled over ℚ.
-/

/-- The shoelace sum of `polygonArea`: term `i` pairs point `i` with point
`(i+1) % n`. -/
def polygonAreaSum (ps : List (ℤ × ℤ)) : ℤ :=
  (List.range ps.length).foldl
    (fun a i =>
      a + ((ps.getD i (0, 0)).1 * (ps.getD ((i + 1) % ps.length) (0, 0)).2 -
        (ps.getD ((i + 1) % ps.length) (0, 0)).1 * (ps.getD i (0, 0)).2)) 0

/-- Go `polygonArea`: absolute value of the shoelace sum, halved. -/
def polygonArea (ps : List (ℤ × ℤ)) : ℚ := ((polygonAreaSum ps).natAbs : ℚ) / 2

/-- Go `FindQuadrilateral`: keep the first contour of strictly larger area,
starting from the nil contour and area 0.0. -/
def FindQuadrilateral (contours : List (List (ℤ × ℤ))) : List (ℤ × ℤ) × ℚ :=
  contours.foldl
    (fun acc c => if acc.2 < polygonArea c then (c, polygonArea c) else acc) ([], 0)

/-- Go `FindCorner`: both corners start at the centre point; every contour
point lowers the first corner and raises the second, componentwise. -/
def FindCorner (contour : List (ℤ × ℤ)) (center : ℤ × ℤ) : List (ℤ × ℤ) :=
  [(contour.foldl
      (fun (ac : (ℤ × ℤ) × (ℤ × ℤ)) p =>
        ((min ac.1.1 p.1, min ac.1.2 p.2), (max ac.2.1 p.1, max ac.2.2 p.2)))
      (center, center)).1,
   (contour.foldl
      (fun (ac : (ℤ × ℤ) × (ℤ × ℤ)) p =>
        ((min ac.1.1 p.1, min ac.1.2 p.2), (max ac.2.1 p.1, max ac.2.2 p.2)))
      (center, center)).2]

/-- The crop rectangle `image.Rect(c[0].X, c[0].Y, c[1].X, c[1].Y)` built
from the two corners returned by `FindCorner`. -/
def cropRect (corners : List (ℤ × ℤ)) : GoRect :=
  mkRect (corners.getD 0 (0, 0)).1 (corners.getD 0 (0, 0)).2
    (corners.getD 1 (0, 0)).1 (corners.getD 1 (0, 0)).2

theorem GoRect.mem_intersect {r s : GoRect} {x y : ℤ} (h : (r.intersect s).mem x y) :
    r.mem x y ∧ s.mem x y := by
  simp only [GoRect.intersect, GoRect.mem, GoRect.zero] at h ⊢
  split at h
  · dsimp only at h
    omega
  · dsimp only at h
    omega

theorem chunkSize_spec {H n : ℤ} (hH : 0 ≤ H) (hn : 1 ≤ n) :
    0 ≤ chunkSize H n ∧ H ≤ n * chunkSize H n := by
  unfold chunkSize
  rw [Int.tdiv_eq_ediv (by omega) (by omega)]
  refine ⟨Int.ediv_nonneg (by omega) (by omega), ?_⟩
  have := @Int.lt_mul_ediv_self_add (H + n - 1) n (by omega)
  omega

/-- C2, counterexample: on a 100-row image with two workers the first band
submitted to the pool is rows `[0, 70)`, not its nominal clamped range
`[0, 50)`: the first band is extended, and it extends 20 rows below its
nominal range (row 60 is inside it). -/
theorem tileGray_band_counterexample :
    chunkRect ⟨0, 0, 10, 100⟩ (chunkSize 100 2) 0 = ⟨0, 0, 10, 70⟩ ∧
    claimedBandRect ⟨0, 0, 10, 100⟩ (chunkSize 100 2) 0 = ⟨0, 0, 10, 50⟩ ∧
    (chunkRect ⟨0, 0, 10, 100⟩ (chunkSize 100 2) 0).mem 5 60 ∧
    ¬ (claimedBandRect ⟨0, 0, 10, 100⟩ (chunkSize 100 2) 0).mem 5 60 := by
  decide

/-- C2, amended: band `i` of a decoded image (bounds `[0,W) x [0,H)`, nominal
start below `maxY`) is the rows
`[startRaw - (20 when startRaw > 20 else 0), min(startRaw + h + 20, H))`:
every band is extended 20 rows below its nominal end (clamped to `H`), and a
band is extended 20 rows upward exactly when its nominal start exceeds 20.
In particular the band always contains its nominal clamped range. -/
theorem tileGray_band_formula (W H : ℤ) (nw i : ℕ) (hW : 0 < W) (hH : 0 ≤ H)
    (hnw : 1 ≤ (nw : ℤ)) (hi : (i : ℤ) * chunkSize H nw < H) :
    chunkRect ⟨0, 0, W, H⟩ (chunkSize H nw) i =
      ⟨0, bandStart 0 (chunkSize H nw) i,
       W, min (bandStartRaw 0 (chunkSize H nw) i + chunkSize H nw + 20) H⟩ ∧
    ∀ x y : ℤ, 0 ≤ x → x < W → bandStartRaw 0 (chunkSize H nw) i ≤ y →
      y < min (bandStartRaw 0 (chunkSize H nw) i + chunkSize H nw) H →
      (chunkRect ⟨0, 0, W, H⟩ (chunkSize H nw) i).mem x y := by
  obtain ⟨h0, -⟩ := chunkSize_spec hH hnw
  have hs : 0 ≤ (i : ℤ) * chunkSize H nw := mul_nonneg (by positivity) h0
  have hraw : bandStartRaw 0 (chunkSize H nw) i = (i : ℤ) * chunkSize H nw := by
    simp [bandStartRaw]
  have hstart_le : bandStart 0 (chunkSize H nw) i ≤ (i : ℤ) * chunkSize H nw := by
    unfold bandStart
    rw [hraw]
    split_ifs <;> omega
  have hstart_nonneg : 0 ≤ bandStart 0 (chunkSize H nw) i := by
    unfold bandStart
    rw [hraw]
    split_ifs <;> omega
  have hend : bandEnd 0 H (chunkSize H nw) i =
      min (bandStartRaw 0 (chunkSize H nw) i + chunkSize H nw + 20) H := by
    unfold bandEnd
    split_ifs <;> omega
  have hend_le : bandEnd 0 H (chunkSize H nw) i ≤ H := by
    rw [hend]; omega
  have hlt : bandStart 0 (chunkSize H nw) i < bandEnd 0 H (chunkSize H nw) i := by
    rw [hend, hraw] at *
    omega
  have hmk : mkRect 0 (bandStart 0 (chunkSize H nw) i) W (bandEnd 0 H (chunkSize H nw) i) =
      ⟨0, bandStart 0 (chunkSize H nw) i, W, bandEnd 0 H (chunkSize H nw) i⟩ := by
    simp only [mkRect, if_pos (le_of_lt hW), if_pos (le_of_lt hlt)]
  have hrect : chunkRect ⟨0, 0, W, H⟩ (chunkSize H nw) i =
      ⟨0, bandStart 0 (chunkSize H nw) i,
       W, min (bandStartRaw 0 (chunkSize H nw) i + chunkSize H nw + 20) H⟩ := by
    unfold chunkRect subBounds
    rw [hmk, ← hend]
    simp only [GoRect.intersect, GoRect.isEmpty, GoRect.zero]
    split_ifs with hemp
    · exfalso
      simp only [GoRect.isEmpty] at hemp
      omega
    · simp only [GoRect.mk.injEq]
      omega
  refine ⟨hrect, ?_⟩
  intro x y hx hxW hy1 hy2
  rw [hrect]
  simp only [GoRect.mem, bandStart, bandStartRaw, zero_add] at *
  split_ifs <;> omega

/-- C1, counterexample: with one worker on a 30-row image the single stitched
region is rows `[0, 10)`, so pixel `(5, 15)` of the image is never drawn and
the union of the stitched regions does not cover the bounds; moreover with
three workers on a 90-row image the regions are `[0,30)`, `[30,80)` and
`[60,90)`, so pixel `(5, 65)` lies in two stitched-output regions. -/
theorem stitch_counterexample :
    ((⟨0, 0, 10, 30⟩ : GoRect).mem 5 15 ∧
      ¬ coveredBy (stitchedRegions ⟨0, 0, 10, 30⟩ 1) 5 15) ∧
    (((stitchedRegions ⟨0, 0, 10, 90⟩ 3).getD 1 GoRect.zero).mem 5 65 ∧
      ((stitchedRegions ⟨0, 0, 10, 90⟩ 3).getD 2 GoRect.zero).mem 5 65) := by
  decide

/-- C1, amended: every region drawn while stitching the Canny bands lies
inside the bounds of the input image (but the regions need neither cover the
bounds nor be pairwise disjoint). -/
theorem stitch_regions_inside_bounds (bounds : GoRect) (nw : ℕ) (x y : ℤ)
    (h : coveredBy (stitchedRegions bounds nw) x y) : bounds.mem x y := by
  obtain ⟨r, hr, hmem⟩ := h
  simp only [stitchedRegions, List.mem_map] at hr
  obtain ⟨i, -, rfl⟩ := hr
  simp only [stitchDrawn] at hmem
  exact (GoRect.mem_intersect (GoRect.mem_intersect hmem).1).2

/-- Witness for `stitch_regions_inside_bounds` at a concrete covered pixel. -/
theorem stitch_regions_inside_bounds_witness :
    (⟨0, 0, 10, 100⟩ : GoRect).mem 5 5 :=
  stitch_regions_inside_bounds ⟨0, 0, 10, 100⟩ 2 5 5 (by decide)

/-- Witness for `tileGray_band_formula` on a 100-row image with two workers. -/
theorem tileGray_band_formula_witness :
    chunkRect ⟨0, 0, 10, 100⟩ (chunkSize 100 2) 1 =
      ⟨0, bandStart 0 (chunkSize 100 2) 1,
       10, min (bandStartRaw 0 (chunkSize 100 2) 1 + chunkSize 100 2 + 20) 100⟩ ∧
    ∀ x y : ℤ, 0 ≤ x → x < 10 → bandStartRaw 0 (chunkSize 100 2) 1 ≤ y →
      y < min (bandStartRaw 0 (chunkSize 100 2) 1 + chunkSize 100 2) 100 →
      (chunkRect ⟨0, 0, 10, 100⟩ (chunkSize 100 2) 1).mem x y :=
  tileGray_band_formula 10 100 2 1 (by decide) (by decide) (by decide) (by decide)

/-!
Correctness of the binary64 rounding model and the worst-case error chain
for the grayscale pixel formula.  `roundScaled_err` bounds one rounding by
half an ulp, i.e. relatively by `2^-52`; `prod_err` and `sum_err` push the
bound through the products and sums of the pixel expression; and
`grayValue_spec` concludes that the emitted byte is the integer quotient
`(299*r8 + 587*g8 + 114*b8) / 1000`, or one less exactly when 1000 divides
the weighted sum and the accumulated float error falls below the integer.
-/

theorem floorLog2Aux_spec (fuel : ℕ) : ∀ n : ℕ, 0 < n → n < 2 ^ fuel →
    2 ^ floorLog2Aux fuel n ≤ n ∧ n < 2 ^ (floorLog2Aux fuel n + 1) := by
  induction fuel with
  | zero =>
    intro n hn hlt
    rw [pow_zero] at hlt
    omega
  | succ fuel ih =>
    intro n hn hlt
    rw [show floorLog2Aux (fuel + 1) n =
      if n ≤ 1 then 0 else floorLog2Aux fuel (n / 2) + 1 from rfl]
    split_ifs with h1
    · have h : n = 1 := by omega
      subst h
      norm_num
    · have hpos : 0 < n / 2 := by omega
      have hlt2 : n / 2 < 2 ^ fuel := by
        rw [pow_succ] at hlt
        omega
      obtain ⟨ih1, ih2⟩ := ih (n / 2) hpos hlt2
      constructor
      · rw [pow_succ]
        omega
      · rw [pow_succ]
        omega

theorem roundHalfEven_err (num b : ℕ) (hb : 0 < b) :
    (2 * roundHalfEven num b * b : ℤ) - 2 * num ≤ b ∧
    (2 * num : ℤ) - 2 * roundHalfEven num b * b ≤ b := by
  obtain ⟨q, m, hmlt, rfl⟩ : ∃ q m, m < b ∧ num = b * q + m :=
    ⟨num / b, num % b, Nat.mod_lt _ hb, ((Nat.div_add_mod num b).symm)⟩
  have hdiv : (b * q + m) / b = q := by
    rw [Nat.mul_add_div hb, Nat.div_eq_of_lt hmlt, Nat.add_zero]
  have hmod : (b * q + m) % b = m := by
    rw [Nat.add_comm, Nat.add_mul_mod_self_left, Nat.mod_eq_of_lt hmlt]
  unfold roundHalfEven
  rw [hdiv, hmod]
  refine ⟨?_, ?_⟩ <;> split_ifs with hc1 hc2 hc3 <;> push_cast <;> nlinarith

theorem roundHalfEven_errQ (num b : ℕ) (hb : 0 < b) :
    |(roundHalfEven num b : ℚ) - (num : ℚ) / b| ≤ 1 / 2 := by
  obtain ⟨h1, h2⟩ := roundHalfEven_err num b hb
  have hbQ : (0 : ℚ) < b := by exact_mod_cast hb
  have h1Q : 2 * (roundHalfEven num b : ℚ) * b - 2 * num ≤ b := by exact_mod_cast h1
  have h2Q : 2 * (num : ℚ) - 2 * (roundHalfEven num b : ℚ) * b ≤ b := by exact_mod_cast h2
  have hkey : (roundHalfEven num b : ℚ) - num / b =
      (2 * (roundHalfEven num b : ℚ) * b - 2 * num) / (2 * b) := by
    field_simp
    ring
  have h2b : (0 : ℚ) < 2 * b := by positivity
  rw [hkey, abs_div, abs_of_pos h2b, div_le_iff h2b]
  rw [abs_le]
  constructor <;> linarith

theorem roundScaled_err (a b : ℕ) (hb : 0 < b) (hlow : b ≤ 64 * a) (hhigh : a ≤ 2 ^ 50 * b) :
    |(roundScaled a b : ℚ) / 2 ^ 60 - (a : ℚ) / b| ≤ ((a : ℚ) / b) / 2 ^ 52 := by
  have ha : a ≠ 0 := by
    intro h
    rw [h] at hlow
    omega
  have haQ : (0 : ℚ) < a := by exact_mod_cast Nat.pos_of_ne_zero ha
  have hbQ : (0 : ℚ) < b := by exact_mod_cast hb
  set m := a * 1024 / b with hm
  have hm16 : 16 ≤ m := by
    rw [hm, Nat.le_div_iff_mul_le hb]
    omega
  have hmhi : m ≤ 2 ^ 60 := by
    rw [hm]
    calc a * 1024 / b ≤ 2 ^ 50 * b * 1024 / b := by
          exact Nat.div_le_div_right (by nlinarith)
      _ = 2 ^ 60 := by
          rw [Nat.mul_comm (2 ^ 50) b, Nat.mul_assoc, Nat.mul_div_cancel_left _ hb]
          norm_num
  obtain ⟨hep1, hep2⟩ := floorLog2Aux_spec 64 m (by omega) (by
    calc m ≤ 2 ^ 60 := hmhi
    _ < 2 ^ 64 := by norm_num)
  set ep := floorLog2 m with hepd
  have hep1' : 2 ^ ep ≤ m := hep1
  have hep2' : m < 2 ^ (ep + 1) := hep2
  have hep_lo : 4 ≤ ep := by
    by_contra hcon
    push_neg at hcon
    have : 2 ^ (ep + 1) ≤ 2 ^ 4 := Nat.pow_le_pow_right (by norm_num) (by omega)
    omega
  have hep_hi : ep ≤ 60 := by
    by_contra hcon
    push_neg at hcon
    have : 2 ^ 61 ≤ 2 ^ ep := Nat.pow_le_pow_right (by norm_num) (by omega)
    have h61 : (2:ℕ) ^ 60 < 2 ^ 61 := by norm_num
    omega
  -- the exact value 1024 * a / b lies in [m, m+1)
  have hdm : b * m + a * 1024 % b = a * 1024 := by
    rw [hm]
    exact Nat.div_add_mod _ _
  have hmq_le : (m : ℚ) ≤ 1024 * ((a : ℚ) / b) := by
    have hble : b * m ≤ a * 1024 := Nat.le.intro hdm
    have hbleQ : (b : ℚ) * m ≤ a * 1024 := by exact_mod_cast hble
    rw [← mul_div_assoc, le_div_iff hbQ]
    nlinarith
  have hkey : (2 ^ ep : ℚ) ≤ 1024 * ((a : ℚ) / b) := by
    calc (2 ^ ep : ℚ) ≤ (m : ℚ) := by exact_mod_cast hep1'
      _ ≤ _ := hmq_le
  -- unfold roundScaled
  have hrs : roundScaled a b = roundHalfEven (a * 2 ^ (62 - ep)) b * 2 ^ (ep - 2) := by
    rw [roundScaled, if_neg ha]
  rw [hrs]
  have hrhe := roundHalfEven_errQ (a * 2 ^ (62 - ep)) b hb
  set n := roundHalfEven (a * 2 ^ (62 - ep)) b with hn
  -- value identity: (a * 2^(62-ep)) / b * 2^(ep-2) / 2^60 = a / b
  have hpow : (2 : ℚ) ^ (62 - ep) * 2 ^ (ep - 2) = 2 ^ 60 := by
    rw [← pow_add]
    congr 1
    omega
  have hval : ((a * 2 ^ (62 - ep) : ℕ) : ℚ) / b * ((2 ^ (ep - 2) : ℕ) : ℚ) / 2 ^ 60
      = (a : ℚ) / b := by
    push_cast
    field_simp
    linear_combination (a : ℚ) * (b : ℚ) * hpow
  have hc : (0 : ℚ) < ((2 ^ (ep - 2) : ℕ) : ℚ) / 2 ^ 60 := by positivity
  have herr : |(n * 2 ^ (ep - 2) : ℕ) / (2 ^ 60 : ℚ) - (a : ℚ) / b| ≤
      (1 / 2) * (((2 ^ (ep - 2) : ℕ) : ℚ) / 2 ^ 60) := by
    rw [← hval]
    have heq : ((n * 2 ^ (ep - 2) : ℕ) : ℚ) / (2 ^ 60 : ℚ) -
        ((a * 2 ^ (62 - ep) : ℕ) : ℚ) / b * ((2 ^ (ep - 2) : ℕ) : ℚ) / 2 ^ 60 =
        ((n : ℚ) - ((a * 2 ^ (62 - ep) : ℕ) : ℚ) / b) * (((2 ^ (ep - 2) : ℕ) : ℚ) / 2 ^ 60) := by
      push_cast
      ring
    rw [heq, abs_mul, abs_of_pos hc]
    exact mul_le_mul_of_nonneg_right hrhe (le_of_lt hc)
  -- bound the half-ulp by the relative bound
  have hulp : (1 / 2) * (((2 ^ (ep - 2) : ℕ) : ℚ) / 2 ^ 60) ≤ ((a : ℚ) / b) / 2 ^ 52 := by
    have hpow2 : ((2 ^ (ep - 2) : ℕ) : ℚ) * 4 = 2 ^ ep := by
      push_cast
      rw [show (4 : ℚ) = 2 ^ 2 from by norm_num, ← pow_add]
      congr 1
      omega
    have hv : (0 : ℚ) ≤ (a : ℚ) / b := by positivity
    nlinarith [hkey, hpow2]
  exact le_trans herr hulp


theorem roundScaled_zero (b : ℕ) : roundScaled 0 b = 0 := by
  rw [roundScaled, if_pos rfl]

theorem prod_err (c n : ℕ) (k : ℚ) (hn : n ≤ 255) (hk : 114 / 1000 ≤ k)
    (hk1 : k ≤ 587 / 1000) (hc : |(c : ℚ) / 2 ^ 60 - k| ≤ k / 2 ^ 52) :
    |(roundScaled (c * n) (2 ^ 60) : ℚ) / 2 ^ 60 - k * n| ≤ 1 / 2 ^ 40 ∧
    (roundScaled (c * n) (2 ^ 60) = 0 ∨ 1 / 10 ≤ k * n) := by
  rcases Nat.eq_zero_or_pos n with hn0 | hn1
  · subst hn0
    rw [Nat.mul_zero, roundScaled_zero]
    refine ⟨?_, Or.inl rfl⟩
    push_cast
    norm_num
  · obtain ⟨hcl, hcr⟩ := abs_le.mp hc
    have hclow : (2 ^ 56 : ℚ) ≤ (c : ℚ) := by nlinarith
    have hclowN : 2 ^ 56 ≤ c := by exact_mod_cast hclow
    have hchiQ : (c : ℚ) ≤ 2 ^ 60 := by nlinarith
    have hchiN : c ≤ 2 ^ 60 := by exact_mod_cast hchiQ
    have hn1Q : (1 : ℚ) ≤ (n : ℚ) := by exact_mod_cast hn1
    have hnQ : (n : ℚ) ≤ 255 := by exact_mod_cast hn
    have hlow : (2 : ℕ) ^ 60 ≤ 64 * (c * n) := by
      have h1 : c ≤ c * n := Nat.le_mul_of_pos_right c hn1
      omega
    have hhigh : c * n ≤ 2 ^ 50 * 2 ^ 60 := by
      have h1 : c * n ≤ 2 ^ 60 * 255 := Nat.mul_le_mul hchiN hn
      omega
    have herr := roundScaled_err (c * n) (2 ^ 60) (by positivity) hlow hhigh
    have hcnQ : ((c * n : ℕ) : ℚ) = (c : ℚ) * n := by push_cast; ring
    rw [hcnQ] at herr
    have htri := abs_sub_le ((roundScaled (c * n) (2 ^ 60) : ℚ) / 2 ^ 60)
      ((c : ℚ) * n / 2 ^ 60) (k * n)
    have hsecond : |(c : ℚ) * n / 2 ^ 60 - k * n| ≤ 255 * (k / 2 ^ 52) := by
      rw [show (c : ℚ) * n / 2 ^ 60 - k * n = ((c : ℚ) / 2 ^ 60 - k) * n from by ring,
        abs_mul, abs_of_nonneg (by positivity : (0 : ℚ) ≤ (n : ℚ))]
      calc |(c : ℚ) / 2 ^ 60 - k| * n ≤ (k / 2 ^ 52) * 255 :=
            mul_le_mul hc hnQ (by positivity) (by positivity)
        _ = 255 * (k / 2 ^ 52) := by ring
    refine ⟨?_, Or.inr ?_⟩
    · have hfirst : |(roundScaled (c * n) (2 ^ 60) : ℚ) / 2 ^ 60 - (c : ℚ) * n / 2 ^ 60| ≤
          ((c : ℚ) * n / 2 ^ 60) / 2 ^ 52 := herr
      have hb1 : ((c : ℚ) * n / 2 ^ 60) / 2 ^ 52 ≤ 255 / 2 ^ 52 := by
        have : (c : ℚ) * n ≤ 2 ^ 60 * 255 := by nlinarith
        rw [div_le_div_iff (by positivity) (by positivity)]
        nlinarith
      have hb2 : 255 * (k / 2 ^ 52) ≤ 150 / 2 ^ 52 := by
        rw [show (255 : ℚ) * (k / 2 ^ 52) = 255 * k / 2 ^ 52 from by ring,
          div_le_div_iff (by positivity) (by positivity)]
        nlinarith
      calc |(roundScaled (c * n) (2 ^ 60) : ℚ) / 2 ^ 60 - k * n| ≤
            |(roundScaled (c * n) (2 ^ 60) : ℚ) / 2 ^ 60 - (c : ℚ) * n / 2 ^ 60| +
              |(c : ℚ) * n / 2 ^ 60 - k * n| := htri
        _ ≤ 255 / 2 ^ 52 + 150 / 2 ^ 52 := add_le_add (le_trans hfirst hb1)
              (le_trans hsecond hb2)
        _ ≤ 1 / 2 ^ 40 := by norm_num
    · calc (1 : ℚ) / 10 ≤ k := le_trans (by norm_num) hk
        _ = k * 1 := by ring
        _ ≤ k * n := by nlinarith

theorem sum_err (u w : ℕ) (kv lv e1 e2 : ℚ)
    (hu : |(u : ℚ) / 2 ^ 60 - kv| ≤ e1) (hw : |(w : ℚ) / 2 ^ 60 - lv| ≤ e2)
    (hu0 : u = 0 ∨ 1 / 10 ≤ kv) (hw0 : w = 0 ∨ 1 / 10 ≤ lv)
    (hkv0 : 0 ≤ kv) (hlv0 : 0 ≤ lv) (hkv : kv ≤ 300) (hlv : lv ≤ 300)
    (he1 : 0 ≤ e1) (he1h : e1 ≤ 1 / 2 ^ 20) (he2 : 0 ≤ e2) (he2h : e2 ≤ 1 / 2 ^ 20) :
    |(roundScaled (u + w) (2 ^ 60) : ℚ) / 2 ^ 60 - (kv + lv)| ≤ e1 + e2 + 1 / 2 ^ 42 ∧
    (roundScaled (u + w) (2 ^ 60) = 0 ∨ 1 / 10 ≤ kv + lv) := by
  obtain ⟨hul, hur⟩ := abs_le.mp hu
  obtain ⟨hwl, hwr⟩ := abs_le.mp hw
  rcases Nat.eq_zero_or_pos (u + w) with h0 | hpos
  · have hu0' : u = 0 := by omega
    have hw0' : w = 0 := by omega
    subst hu0'
    subst hw0'
    rw [roundScaled_zero]
    refine ⟨?_, Or.inl rfl⟩
    rw [Nat.cast_zero, zero_div, zero_sub, abs_neg,
      abs_of_nonneg (by positivity : (0 : ℚ) ≤ kv + lv)]
    rw [Nat.cast_zero, zero_div, zero_sub, abs_neg, abs_of_nonneg hkv0] at hu
    rw [Nat.cast_zero, zero_div, zero_sub, abs_neg, abs_of_nonneg hlv0] at hw
    have hq : (0 : ℚ) < 1 / 2 ^ 42 := by positivity
    linarith
  · have hK : 1 / 10 ≤ kv + lv := by
      rcases Nat.eq_zero_or_pos u with hu' | hu'
      · have hwpos : 0 < w := by omega
        rcases hw0 with h | h
        · omega
        · linarith
      · rcases hu0 with h | h
        · omega
        · linarith
    have hu2 : kv - e1 ≤ (u : ℚ) / 2 ^ 60 := by linarith
    have hw2 : lv - e2 ≤ (w : ℚ) / 2 ^ 60 := by linarith
    have hu3 : (u : ℚ) / 2 ^ 60 ≤ kv + e1 := by linarith
    have hw3 : (w : ℚ) / 2 ^ 60 ≤ lv + e2 := by linarith
    have h1 : (1 : ℚ) / 16 ≤ ((u : ℚ) + w) / 2 ^ 60 := by
      rw [add_div]
      linarith
    have huwlow : (2 : ℕ) ^ 60 ≤ 64 * (u + w) := by
      have h2 : (2 ^ 60 : ℚ) ≤ 64 * ((u : ℚ) + w) := by
        rw [le_div_iff (by positivity : (0 : ℚ) < 2 ^ 60)] at h1
        nlinarith
      exact_mod_cast h2
    have hval : ((u : ℚ) + w) / 2 ^ 60 ≤ 602 := by
      rw [add_div]
      linarith
    have huwhigh : u + w ≤ 2 ^ 50 * 2 ^ 60 := by
      have h2 : ((u : ℚ) + w) ≤ 602 * 2 ^ 60 := by
        rw [div_le_iff (by positivity : (0 : ℚ) < 2 ^ 60)] at hval
        linarith
      have h3 : ((u : ℚ) + w) ≤ 2 ^ 50 * 2 ^ 60 := by
        refine le_trans h2 ?_
        norm_num
      exact_mod_cast h3
    have herr := roundScaled_err (u + w) (2 ^ 60) (by positivity) huwlow huwhigh
    push_cast at herr
    have hfirst : |(roundScaled (u + w) (2 ^ 60) : ℚ) / 2 ^ 60 - ((u : ℚ) + w) / 2 ^ 60| ≤
        602 / 2 ^ 52 := by
      refine le_trans herr ?_
      rw [div_le_div_iff (by positivity) (by positivity)]
      have hnn : (0 : ℚ) ≤ ((u : ℚ) + w) / 2 ^ 60 := by positivity
      nlinarith
    have hsecond : |((u : ℚ) + w) / 2 ^ 60 - (kv + lv)| ≤ e1 + e2 := by
      rw [add_div]
      have h : (u : ℚ) / 2 ^ 60 + (w : ℚ) / 2 ^ 60 - (kv + lv) =
          ((u : ℚ) / 2 ^ 60 - kv) + ((w : ℚ) / 2 ^ 60 - lv) := by ring
      rw [h]
      exact le_trans (abs_add _ _) (add_le_add hu hw)
    refine ⟨?_, Or.inr hK⟩
    have htri : |(roundScaled (u + w) (2 ^ 60) : ℚ) / 2 ^ 60 - (kv + lv)| ≤
        |(roundScaled (u + w) (2 ^ 60) : ℚ) / 2 ^ 60 - ((u : ℚ) + w) / 2 ^ 60| +
          |((u : ℚ) + w) / 2 ^ 60 - (kv + lv)| := by
      push_cast
      exact abs_sub_le _ _ _
    calc |(roundScaled (u + w) (2 ^ 60) : ℚ) / 2 ^ 60 - (kv + lv)| ≤
          |(roundScaled (u + w) (2 ^ 60) : ℚ) / 2 ^ 60 - ((u : ℚ) + w) / 2 ^ 60| +
            |((u : ℚ) + w) / 2 ^ 60 - (kv + lv)| := htri
      _ ≤ 602 / 2 ^ 52 + (e1 + e2) := add_le_add hfirst hsecond
      _ ≤ e1 + e2 + 1 / 2 ^ 42 := by
          have h : (602 : ℚ) / 2 ^ 52 ≤ 1 / 2 ^ 42 := by norm_num
          linarith

set_option maxHeartbeats 1600000 in
theorem grayValue_spec (r g b : ℕ) (hr : r ≤ 65535) (hg : g ≤ 65535) (hb : b ≤ 65535) :
    (grayValue r g b = (299 * (r >>> 8) + 587 * (g >>> 8) + 114 * (b >>> 8)) / 1000 ∨
      grayValue r g b + 1 = (299 * (r >>> 8) + 587 * (g >>> 8) + 114 * (b >>> 8)) / 1000 ∧
        1000 ∣ (299 * (r >>> 8) + 587 * (g >>> 8) + 114 * (b >>> 8))) ∧
    (¬ 1000 ∣ (299 * (r >>> 8) + 587 * (g >>> 8) + 114 * (b >>> 8)) →
      grayValue r g b = (299 * (r >>> 8) + 587 * (g >>> 8) + 114 * (b >>> 8)) / 1000) := by
  set r8 := r >>> 8 with hr8d
  set g8 := g >>> 8 with hg8d
  set b8 := b >>> 8 with hb8d
  have hr8le : r8 ≤ 255 := by
    rw [hr8d, Nat.shiftRight_eq_div_pow]
    omega
  have hg8le : g8 ≤ 255 := by
    rw [hg8d, Nat.shiftRight_eq_div_pow]
    omega
  have hb8le : b8 ≤ 255 := by
    rw [hb8d, Nat.shiftRight_eq_div_pow]
    omega
  have hr8Q : (r8 : ℚ) ≤ 255 := by exact_mod_cast hr8le
  have hg8Q : (g8 : ℚ) ≤ 255 := by exact_mod_cast hg8le
  have hb8Q : (b8 : ℚ) ≤ 255 := by exact_mod_cast hb8le
  have hc299 : |(c299 : ℚ) / 2 ^ 60 - 299 / 1000| ≤ (299 / 1000 : ℚ) / 2 ^ 52 := by
    have h := roundScaled_err 299 1000 (by norm_num) (by norm_num) (by norm_num)
    unfold c299
    norm_num at h ⊢
    exact h
  have hc587 : |(c587 : ℚ) / 2 ^ 60 - 587 / 1000| ≤ (587 / 1000 : ℚ) / 2 ^ 52 := by
    have h := roundScaled_err 587 1000 (by norm_num) (by norm_num) (by norm_num)
    unfold c587
    norm_num at h ⊢
    exact h
  have hc114 : |(c114 : ℚ) / 2 ^ 60 - 114 / 1000| ≤ (114 / 1000 : ℚ) / 2 ^ 52 := by
    have h := roundScaled_err 114 1000 (by norm_num) (by norm_num) (by norm_num)
    unfold c114
    norm_num at h ⊢
    exact h
  obtain ⟨hp1e, hp1z⟩ := prod_err c299 r8 (299 / 1000) hr8le (by norm_num) (by norm_num) hc299
  obtain ⟨hp2e, hp2z⟩ := prod_err c587 g8 (587 / 1000) hg8le (by norm_num) (by norm_num) hc587
  obtain ⟨hp3e, hp3z⟩ := prod_err c114 b8 (114 / 1000) hb8le (by norm_num) (by norm_num) hc114
  obtain ⟨hs1e, hs1z⟩ := sum_err (roundScaled (c299 * r8) (2 ^ 60))
    (roundScaled (c587 * g8) (2 ^ 60)) (299 / 1000 * r8) (587 / 1000 * g8)
    (1 / 2 ^ 40) (1 / 2 ^ 40) hp1e hp2e hp1z hp2z
    (by positivity) (by positivity) (by nlinarith) (by nlinarith)
    (by norm_num) (by norm_num) (by norm_num) (by norm_num)
  obtain ⟨hs2e, hs2z⟩ := sum_err
    (roundScaled (roundScaled (c299 * r8) (2 ^ 60) + roundScaled (c587 * g8) (2 ^ 60)) (2 ^ 60))
    (roundScaled (c114 * b8) (2 ^ 60))
    (299 / 1000 * r8 + 587 / 1000 * g8) (114 / 1000 * b8)
    (1 / 2 ^ 40 + 1 / 2 ^ 40 + 1 / 2 ^ 42) (1 / 2 ^ 40) hs1e hp3e hs1z hp3z
    (by positivity) (by positivity) (by nlinarith) (by nlinarith)
    (by norm_num) (by norm_num) (by norm_num) (by norm_num)
  set s2 := roundScaled
    (roundScaled (roundScaled (c299 * r8) (2 ^ 60) + roundScaled (c587 * g8) (2 ^ 60)) (2 ^ 60) +
      roundScaled (c114 * b8) (2 ^ 60)) (2 ^ 60) with hs2d
  have hgv : grayValue r g b = s2 / 2 ^ 60 := rfl
  clear_value s2
  set S := 299 * r8 + 587 * g8 + 114 * b8 with hSd
  have hKS : 299 / 1000 * (r8 : ℚ) + 587 / 1000 * g8 + 114 / 1000 * b8 = (S : ℚ) / 1000 := by
    rw [hSd]
    push_cast
    ring
  have hclose : |(s2 : ℚ) / 2 ^ 60 - (S : ℚ) / 1000| ≤ 1 / 2 ^ 37 := by
    have h1 : (1 / 2 ^ 40 + 1 / 2 ^ 40 + 1 / 2 ^ 42 : ℚ) + 1 / 2 ^ 40 + 1 / 2 ^ 42 ≤
        1 / 2 ^ 37 := by norm_num
    rw [← hKS]
    calc |(s2 : ℚ) / 2 ^ 60 - (299 / 1000 * (r8 : ℚ) + 587 / 1000 * g8 + 114 / 1000 * b8)| =
          |(s2 : ℚ) / 2 ^ 60 - (299 / 1000 * (r8 : ℚ) + 587 / 1000 * g8 + 114 / 1000 * b8)| :=
            rfl
      _ ≤ _ := by
          have h2 : (299 / 1000 * (r8 : ℚ) + 587 / 1000 * g8 + 114 / 1000 * b8) =
              (299 / 1000 * (r8 : ℚ) + 587 / 1000 * g8) + 114 / 1000 * b8 := by ring
          rw [h2]
          exact le_trans hs2e h1
  obtain ⟨hcl, hcr⟩ := abs_le.mp hclose
  set q := S / 1000 with hqd
  set m := S % 1000 with hmd
  have hSqm : 1000 * q + m = S := Nat.div_add_mod S 1000
  have hmlt : m < 1000 := Nat.mod_lt _ (by norm_num)
  have hSQ : (S : ℚ) / 1000 = (q : ℚ) + (m : ℚ) / 1000 := by
    have hS : (S : ℚ) = 1000 * q + m := by exact_mod_cast hSqm.symm
    rw [hS]
    field_simp
    ring
  have hdvd : 1000 ∣ S ↔ m = 0 := by
    rw [hmd]
    exact Nat.dvd_iff_mod_eq_zero
  rw [hgv]
  clear_value S q m
  rcases Nat.eq_zero_or_pos m with hm0 | hmpos
  · -- the exact value is the integer q: the float floor is q or q - 1
    have hmQ : (m : ℚ) = 0 := by rw [hm0]; norm_num
    have hup : (s2 : ℚ) < ((q : ℚ) + 1) * 2 ^ 60 := by
      rw [hSQ, hmQ] at hcr
      have h : (s2 : ℚ) / 2 ^ 60 < (q : ℚ) + 1 := by
        have hq : (1 : ℚ) / 2 ^ 37 < 1 := by norm_num
        linarith
      rw [div_lt_iff (by positivity : (0 : ℚ) < 2 ^ 60)] at h
      linarith
    have hupN : s2 < (q + 1) * 2 ^ 60 := by exact_mod_cast hup
    have hdivle : s2 / 2 ^ 60 ≤ q := by
      have := (Nat.div_lt_iff_lt_mul (show 0 < 2 ^ 60 from by positivity)).mpr hupN
      omega
    rcases Nat.eq_zero_or_pos q with hq0 | hqpos
    · refine ⟨Or.inl (by omega), fun hnd => absurd (hdvd.mpr hm0) hnd⟩
    · have hdown : ((q : ℚ) - 1) * 2 ^ 60 ≤ (s2 : ℚ) := by
        rw [hSQ, hmQ] at hcl
        have h : (q : ℚ) - 1 ≤ (s2 : ℚ) / 2 ^ 60 := by
          have hq : (1 : ℚ) / 2 ^ 37 < 1 := by norm_num
          linarith
        rw [le_div_iff (by positivity : (0 : ℚ) < 2 ^ 60)] at h
        linarith
      have hdownN : (q - 1) * 2 ^ 60 ≤ s2 := by
        have hcast : (((q - 1) * 2 ^ 60 : ℕ) : ℚ) = ((q : ℚ) - 1) * 2 ^ 60 := by
          push_cast [hqpos]
          ring
        exact_mod_cast hcast ▸ hdown
      have hdivge : q - 1 ≤ s2 / 2 ^ 60 :=
        (Nat.le_div_iff_mul_le (show 0 < 2 ^ 60 from by positivity)).mpr hdownN
      rcases Nat.lt_or_ge (s2 / 2 ^ 60) q with hlt | hge
      · exact ⟨Or.inr ⟨by omega, hdvd.mpr hm0⟩, fun hnd => absurd (hdvd.mpr hm0) hnd⟩
      · exact ⟨Or.inl (by omega), fun hnd => by omega⟩
  · -- the exact value has fractional part at least 1/1000: floors agree
    have hmQ1 : (1 : ℚ) ≤ (m : ℚ) := by exact_mod_cast hmpos
    have hmQ2 : (m : ℚ) ≤ 999 := by
      have : m ≤ 999 := by omega
      exact_mod_cast this
    have hmdivlo : (1 : ℚ) / 1000 ≤ (m : ℚ) / 1000 := by linarith
    have hmdivhi : (m : ℚ) / 1000 ≤ 999 / 1000 := by linarith
    have hup : (s2 : ℚ) < ((q : ℚ) + 1) * 2 ^ 60 := by
      rw [hSQ] at hcr
      have h : (s2 : ℚ) / 2 ^ 60 < (q : ℚ) + 1 := by linarith only [hcr, hmdivhi]
      rw [div_lt_iff (by positivity : (0 : ℚ) < 2 ^ 60)] at h
      linarith only [h]
    have hdown : (q : ℚ) * 2 ^ 60 ≤ (s2 : ℚ) := by
      rw [hSQ] at hcl
      have h : (q : ℚ) ≤ (s2 : ℚ) / 2 ^ 60 := by linarith only [hcl, hmdivlo]
      rw [le_div_iff (by positivity : (0 : ℚ) < 2 ^ 60)] at h
      linarith only [h]
    have hupN : s2 < (q + 1) * 2 ^ 60 := by exact_mod_cast hup
    have hdownN : q * 2 ^ 60 ≤ s2 := by exact_mod_cast hdown
    have hdivle : s2 / 2 ^ 60 ≤ q := by
      have := (Nat.div_lt_iff_lt_mul (show 0 < 2 ^ 60 from by positivity)).mpr hupN
      omega
    have hdivge : q ≤ s2 / 2 ^ 60 :=
      (Nat.le_div_iff_mul_le (show 0 < 2 ^ 60 from by positivity)).mpr hdownN
    have heq : s2 / 2 ^ 60 = q := by omega
    exact ⟨Or.inl heq, fun _ => heq⟩

/-- C3, counterexample: for the pixel with 16-bit channels `(0, 65535, 0)`
the code computes `0.587 * 255 = 149.685` and emits 149, while the claimed
formula `((299R + 587G + 114B) / 1000) >> 8` gives `38469 >> 8 = 150`; and
for `(257, 257, 257)` the float64 sum evaluates to just below 1, emitting
0, while the claimed formula gives `(257000 / 1000) >> 8 = 1`. -/
theorem grayscale_counterexample :
    grayAt (Grayscale ⟨1, 1, fun _ _ => (0, 65535, 0)⟩) 0 0 = 149 ∧
    claimedGrayValue 0 65535 0 = 150 ∧
    grayAt (Grayscale ⟨1, 1, fun _ _ => (257, 257, 257)⟩) 0 0 = 0 ∧
    claimedGrayValue 257 257 257 = 1 := by
  refine ⟨?_, by decide, ?_, by decide⟩
  · have h : grayAt (Grayscale ⟨1, 1, fun _ _ => (0, 65535, 0)⟩) 0 0 =
        grayValue 0 65535 0 := by
      unfold grayAt
      rw [if_pos (by decide : (Grayscale ⟨1, 1, fun _ _ => (0, 65535, 0)⟩).inBounds 0 0)]
      rfl
    rw [h]
    decide
  · have h : grayAt (Grayscale ⟨1, 1, fun _ _ => (257, 257, 257)⟩) 0 0 =
        grayValue 257 257 257 := by
      unfold grayAt
      rw [if_pos (by decide : (Grayscale ⟨1, 1, fun _ _ => (257, 257, 257)⟩).inBounds 0 0)]
      rfl
    rw [h]
    decide

/-- C3, amended: each pixel of `Grayscale` is the `uint8` truncation of the
per-operation-rounded binary64 evaluation of `0.299*r8 + 0.587*g8 +
0.114*b8` on the high bytes `r8 = R >> 8`, `g8 = G >> 8`, `b8 = B >> 8` of
the 16-bit channels.  It equals the integer quotient `(299*r8 + 587*g8 +
114*b8) / 1000` whenever 1000 does not divide the weighted sum, and
otherwise that quotient or one less — not the claimed
`((299*R + 587*G + 114*B) / 1000) >> 8` on the 16-bit values. -/
theorem grayscale_pixel_formula (img : RGBAImage) (x y : ℤ)
    (hin : (Grayscale img).inBounds x y)
    (hr : (img.rgba x y).1 ≤ 65535) (hg : (img.rgba x y).2.1 ≤ 65535)
    (hb : (img.rgba x y).2.2 ≤ 65535) :
    (grayAt (Grayscale img) x y =
        (299 * ((img.rgba x y).1 >>> 8) + 587 * ((img.rgba x y).2.1 >>> 8) +
          114 * ((img.rgba x y).2.2 >>> 8)) / 1000 ∨
      grayAt (Grayscale img) x y + 1 =
        (299 * ((img.rgba x y).1 >>> 8) + 587 * ((img.rgba x y).2.1 >>> 8) +
          114 * ((img.rgba x y).2.2 >>> 8)) / 1000 ∧
        1000 ∣ (299 * ((img.rgba x y).1 >>> 8) + 587 * ((img.rgba x y).2.1 >>> 8) +
          114 * ((img.rgba x y).2.2 >>> 8))) ∧
    (¬ 1000 ∣ (299 * ((img.rgba x y).1 >>> 8) + 587 * ((img.rgba x y).2.1 >>> 8) +
        114 * ((img.rgba x y).2.2 >>> 8)) →
      grayAt (Grayscale img) x y =
        (299 * ((img.rgba x y).1 >>> 8) + 587 * ((img.rgba x y).2.1 >>> 8) +
          114 * ((img.rgba x y).2.2 >>> 8)) / 1000) := by
  rw [grayAt, if_pos hin]
  exact grayValue_spec _ _ _ hr hg hb

/-- Witness for `grayscale_pixel_formula` on a concrete 1 x 1 image. -/
theorem grayscale_pixel_formula_witness :
    (grayAt (Grayscale ⟨1, 1, fun _ _ => (0, 65535, 0)⟩) 0 0 =
        (299 * ((0 : ℕ) >>> 8) + 587 * ((65535 : ℕ) >>> 8) + 114 * ((0 : ℕ) >>> 8)) / 1000 ∨
      grayAt (Grayscale ⟨1, 1, fun _ _ => (0, 65535, 0)⟩) 0 0 + 1 =
        (299 * ((0 : ℕ) >>> 8) + 587 * ((65535 : ℕ) >>> 8) + 114 * ((0 : ℕ) >>> 8)) / 1000 ∧
        1000 ∣ (299 * ((0 : ℕ) >>> 8) + 587 * ((65535 : ℕ) >>> 8) + 114 * ((0 : ℕ) >>> 8))) ∧
    (¬ 1000 ∣ (299 * ((0 : ℕ) >>> 8) + 587 * ((65535 : ℕ) >>> 8) + 114 * ((0 : ℕ) >>> 8)) →
      grayAt (Grayscale ⟨1, 1, fun _ _ => (0, 65535, 0)⟩) 0 0 =
        (299 * ((0 : ℕ) >>> 8) + 587 * ((65535 : ℕ) >>> 8) + 114 * ((0 : ℕ) >>> 8)) / 1000) :=
  grayscale_pixel_formula ⟨1, 1, fun _ _ => (0, 65535, 0)⟩ 0 0 (by decide) (by decide)
    (by decide) (by decide)

theorem setGray_rect (img : GraySub) (x y : ℤ) (v : ℕ) :
    (img.setGray x y v).rect = img.rect := by
  unfold GraySub.setGray
  split <;> rfl

theorem hystPass2Step_rect (st : GraySub) (p : ℤ × ℤ) : (hystPass2Step st p).rect = st.rect := by
  unfold hystPass2Step
  split_ifs <;> simp [setGray_rect]

theorem foldl_hystPass2Step_rect (l : List (ℤ × ℤ)) (st : GraySub) :
    (l.foldl hystPass2Step st).rect = st.rect := by
  induction l generalizing st with
  | nil => rfl
  | cons p t ih => rw [List.foldl_cons, ih, hystPass2Step_rect]

theorem grayAt_setGray_ne (st : GraySub) {x y a b : ℤ} (v : ℕ)
    (hne : ¬(a = x ∧ b = y)) :
    (st.setGray x y v).grayAt a b = st.grayAt a b := by
  unfold GraySub.setGray
  split_ifs with hin
  · unfold GraySub.grayAt
    dsimp only
    rw [if_neg hne]
  · rfl

theorem grayAt_setGray_self (st : GraySub) {x y : ℤ} (v : ℕ) (hin : st.rect.mem x y) :
    (st.setGray x y v).grayAt x y = v := by
  unfold GraySub.setGray
  rw [if_pos hin]
  unfold GraySub.grayAt
  rw [if_pos (show ((⟨st.rect, fun a b => if a = x ∧ b = y then v else st.pix a b⟩ :
    GraySub)).rect.mem x y from hin)]
  dsimp only
  rw [if_pos ⟨rfl, rfl⟩]

theorem hystPass2Step_grayAt_ne (st : GraySub) (p : ℤ × ℤ) {a b : ℤ}
    (hne : ¬(a = p.1 ∧ b = p.2)) :
    (hystPass2Step st p).grayAt a b = st.grayAt a b := by
  unfold hystPass2Step
  split_ifs <;> first | rfl | exact grayAt_setGray_ne st _ hne

theorem hystPass2Step_grayAt_of_ne75 (st : GraySub) (p : ℤ × ℤ) {a b : ℤ}
    (hv : st.grayAt a b ≠ 75) :
    (hystPass2Step st p).grayAt a b = st.grayAt a b := by
  by_cases hab : a = p.1 ∧ b = p.2
  · unfold hystPass2Step
    rw [if_neg (by rw [← hab.1, ← hab.2]; exact hv)]
  · exact hystPass2Step_grayAt_ne st p hab

theorem foldl_grayAt_not_mem (l : List (ℤ × ℤ)) (st : GraySub) {a b : ℤ}
    (h : (a, b) ∉ l) :
    (l.foldl hystPass2Step st).grayAt a b = st.grayAt a b := by
  induction l generalizing st with
  | nil => rfl
  | cons p t ih =>
    rw [List.foldl_cons, ih (hystPass2Step st p) (fun hmem => h (List.mem_cons_of_mem _ hmem))]
    refine hystPass2Step_grayAt_ne st p (fun hab => h ?_)
    rw [show p = (a, b) from by rw [hab.1, hab.2]]
    exact List.mem_cons_self _ _

theorem foldl_grayAt_of_ne75 (l : List (ℤ × ℤ)) (st : GraySub) {a b : ℤ}
    (hv : st.grayAt a b ≠ 75) :
    (l.foldl hystPass2Step st).grayAt a b = st.grayAt a b := by
  induction l generalizing st with
  | nil => rfl
  | cons p t ih =>
    have h1 : (hystPass2Step st p).grayAt a b = st.grayAt a b :=
      hystPass2Step_grayAt_of_ne75 st p hv
    rw [List.foldl_cons, ih (hystPass2Step st p) (by rw [h1]; exact hv), h1]

theorem foldl_split_of_mem (l : List (ℤ × ℤ)) (hnd : l.Nodup) {p : ℤ × ℤ} (hp : p ∈ l)
    (st : GraySub) :
    ∃ l₁ l₂, l = l₁ ++ p :: l₂ ∧ p ∉ l₁ ∧ p ∉ l₂ ∧
      l.foldl hystPass2Step st =
        l₂.foldl hystPass2Step (hystPass2Step (l₁.foldl hystPass2Step st) p) := by
  obtain ⟨l₁, l₂, rfl⟩ := List.append_of_mem hp
  rw [List.nodup_append] at hnd
  obtain ⟨-, hnd2, hdisj⟩ := hnd
  refine ⟨l₁, l₂, rfl, ?_, (List.nodup_cons.mp hnd2).1, ?_⟩
  · intro hmem
    exact hdisj hmem (List.mem_cons_self _ _)
  · rw [List.foldl_append, List.foldl_cons]

theorem mem_pass2Coords (maxX maxY : ℤ) (x y : ℤ) :
    (x, y) ∈ pass2Coords maxX maxY ↔ 1 ≤ x ∧ x < maxX - 1 ∧ 1 ≤ y ∧ y < maxY - 1 := by
  unfold pass2Coords
  simp only [List.mem_flatMap, List.mem_map, List.mem_range]
  constructor
  · rintro ⟨j, hj, i, hi, heq⟩
    rw [Prod.mk.injEq] at heq
    omega
  · rintro ⟨h1, h2, h3, h4⟩
    refine ⟨(y - 1).toNat, by omega, (x - 1).toNat, by omega, ?_⟩
    rw [Prod.mk.injEq]
    omega

theorem pass2Coords_nodup (maxX maxY : ℤ) : (pass2Coords maxX maxY).Nodup := by
  unfold pass2Coords
  refine List.nodup_flatMap.mpr ⟨fun j _ => ?_, ?_⟩
  · refine (List.nodup_range _).map ?_
    intro i i' hii
    rw [Prod.mk.injEq] at hii
    omega
  · refine (List.nodup_range _).imp ?_
    intro j j' hjj
    intro p hp hp'
    simp only [List.mem_map, List.mem_range] at hp hp'
    obtain ⟨i, -, rfl⟩ := hp
    obtain ⟨i', -, heq⟩ := hp'
    rw [Prod.mk.injEq] at heq
    omega

theorem hystPass1_grayAt_cases (img : GraySub) (low high : ℚ) (x y : ℤ) :
    (hystPass1 img low high).grayAt x y = 0 ∨ (hystPass1 img low high).grayAt x y = 75 ∨
      (hystPass1 img low high).grayAt x y = 255 := by
  unfold hystPass1 GraySub.grayAt
  dsimp only
  split_ifs <;> simp

theorem hystPass1_grayAt_mem (img : GraySub) (low high : ℚ) {x y : ℤ}
    (hin : img.rect.mem x y) :
    (hystPass1 img low high).grayAt x y =
      if high ≤ (img.grayAt x y : ℚ) then 255
      else if low ≤ (img.grayAt x y : ℚ) then 75 else 0 := by
  have hin1 : (hystPass1 img low high).rect.mem x y := hin
  have hpix : (hystPass1 img low high).grayAt x y = (hystPass1 img low high).pix x y := by
    unfold GraySub.grayAt
    rw [if_pos hin1]
  rw [hpix]
  rfl

theorem hystPass2Step_pair_ne75 (st : GraySub) (x y : ℤ) (h : st.grayAt x y ≠ 75) :
    hystPass2Step st (x, y) = st := by
  unfold hystPass2Step
  dsimp only
  rw [if_neg h]

theorem hystPass2Step_pair_connected (st : GraySub) (x y : ℤ) (h75 : st.grayAt x y = 75)
    (hc : isConnectedToStrong st x y) :
    hystPass2Step st (x, y) = st.setGray x y 255 := by
  unfold hystPass2Step
  dsimp only
  rw [if_pos h75, if_pos hc]

theorem hystPass2Step_pair_not_connected (st : GraySub) (x y : ℤ) (h75 : st.grayAt x y = 75)
    (hc : ¬isConnectedToStrong st x y) :
    hystPass2Step st (x, y) = st.setGray x y 0 := by
  unfold hystPass2Step
  dsimp only
  rw [if_pos h75, if_neg hc]

theorem hysteresis_zone_spec (img : GraySub) (low high : ℚ) {x y : ℤ}
    (hin : img.rect.mem x y)
    (hx1 : 1 ≤ x) (hx2 : x < img.rect.maxX - 1) (hy1 : 1 ≤ y) (hy2 : y < img.rect.maxY - 1) :
    ((hystPass1 img low high).grayAt x y ≠ 75 →
      (hysteresisThresholding img low high).grayAt x y =
        (hystPass1 img low high).grayAt x y) ∧
    ((hystPass1 img low high).grayAt x y = 75 →
      ((hysteresisThresholding img low high).grayAt x y = 0 ∨
        (hysteresisThresholding img low high).grayAt x y = 255) ∧
      (isConnectedToStrong (hystPass1 img low high) x y →
        (hysteresisThresholding img low high).grayAt x y = 255) ∧
      ((hysteresisThresholding img low high).grayAt x y = 255 →
        isConnectedToStrong (hysteresisThresholding img low high) x y)) := by
  have hmem : (x, y) ∈ pass2Coords img.rect.maxX img.rect.maxY :=
    (mem_pass2Coords _ _ _ _).mpr ⟨hx1, hx2, hy1, hy2⟩
  obtain ⟨l₁, l₂, hsplit, hn1, hn2, heq⟩ :=
    foldl_split_of_mem (pass2Coords img.rect.maxX img.rect.maxY) (pass2Coords_nodup _ _) hmem
      (hystPass1 img low high)
  have hout : hysteresisThresholding img low high =
      l₂.foldl hystPass2Step
        (hystPass2Step (l₁.foldl hystPass2Step (hystPass1 img low high)) (x, y)) := heq
  have hmidxy : (l₁.foldl hystPass2Step (hystPass1 img low high)).grayAt x y =
      (hystPass1 img low high).grayAt x y := foldl_grayAt_not_mem l₁ _ hn1
  have hmid255 : ∀ a b : ℤ, (hystPass1 img low high).grayAt a b = 255 →
      (l₁.foldl hystPass2Step (hystPass1 img low high)).grayAt a b = 255 := by
    intro a b hab
    rw [foldl_grayAt_of_ne75 l₁ _ (by rw [hab]; norm_num)]
    exact hab
  have hrect : (l₁.foldl hystPass2Step (hystPass1 img low high)).rect = img.rect := by
    rw [foldl_hystPass2Step_rect]
    rfl
  have hinmid : (l₁.foldl hystPass2Step (hystPass1 img low high)).rect.mem x y := by
    rw [hrect]
    exact hin
  constructor
  · intro hne
    have hstep : hystPass2Step (l₁.foldl hystPass2Step (hystPass1 img low high)) (x, y) =
        l₁.foldl hystPass2Step (hystPass1 img low high) :=
      hystPass2Step_pair_ne75 _ x y (by rw [hmidxy]; exact hne)
    rw [hout, hstep, foldl_grayAt_not_mem l₂ _ hn2, hmidxy]
  · intro h75
    have hcond : (l₁.foldl hystPass2Step (hystPass1 img low high)).grayAt x y = 75 := by
      rw [hmidxy]
      exact h75
    by_cases hconn : isConnectedToStrong (l₁.foldl hystPass2Step (hystPass1 img low high)) x y
    · have hstep : hystPass2Step (l₁.foldl hystPass2Step (hystPass1 img low high)) (x, y) =
          (l₁.foldl hystPass2Step (hystPass1 img low high)).setGray x y 255 :=
        hystPass2Step_pair_connected _ x y hcond hconn
      have hself : ((l₁.foldl hystPass2Step (hystPass1 img low high)).setGray x y 255).grayAt x y
          = 255 := grayAt_setGray_self _ 255 hinmid
      have hval : (hysteresisThresholding img low high).grayAt x y = 255 := by
        rw [hout, hstep, foldl_grayAt_of_ne75 l₂ _ (by rw [hself]; norm_num), hself]
      refine ⟨Or.inr hval, fun _ => hval, fun _ => ?_⟩
      obtain ⟨d, hd, hnb⟩ := hconn
      refine ⟨d, hd, ?_⟩
      have hnb2 : (hystPass2Step (l₁.foldl hystPass2Step (hystPass1 img low high)) (x, y)).grayAt
          (x + d.1) (y + d.2) = 255 := by
        rw [hystPass2Step_grayAt_of_ne75 _ (x, y) (by rw [hnb]; norm_num)]
        exact hnb
      rw [hout, foldl_grayAt_of_ne75 l₂ _ (by rw [hnb2]; norm_num), hnb2]
    · have hstep : hystPass2Step (l₁.foldl hystPass2Step (hystPass1 img low high)) (x, y) =
          (l₁.foldl hystPass2Step (hystPass1 img low high)).setGray x y 0 :=
        hystPass2Step_pair_not_connected _ x y hcond hconn
      have hself : ((l₁.foldl hystPass2Step (hystPass1 img low high)).setGray x y 0).grayAt x y
          = 0 := grayAt_setGray_self _ 0 hinmid
      have hval : (hysteresisThresholding img low high).grayAt x y = 0 := by
        rw [hout, hstep, foldl_grayAt_of_ne75 l₂ _ (by rw [hself]; norm_num), hself]
      refine ⟨Or.inl hval, fun hconn1 => ?_, fun h255 => ?_⟩
      · exfalso
        apply hconn
        obtain ⟨d, hd, hnb⟩ := hconn1
        exact ⟨d, hd, hmid255 _ _ hnb⟩
      · rw [hval] at h255
        norm_num at h255

/-- C10: every output pixel of `hysteresisThresholding` is 0, 75 or 255,
and a pixel of the bounds in the pass-2 visit zone — coordinates in
`[1, Max.X-2] x [1, Max.Y-2]`, whatever `Rect.Min` is — ends 0 or 255,
while a pixel of the bounds outside that zone keeps its pass-1 label, so a
weak such pixel is left at 75.  For a zero-origin image the zone is the
strict interior and weak border pixels stay 75; but on a band sub-image
with `Min.Y >= 1` the zone covers the outermost top row, whose weak pixels
are resolved to 0 or 255 rather than kept at 75. -/
theorem hysteresis_output_range (img : GraySub) (low high : ℚ) (x y : ℤ)
    (hin : img.rect.mem x y) :
    ((hysteresisThresholding img low high).grayAt x y = 0 ∨
      (hysteresisThresholding img low high).grayAt x y = 75 ∨
      (hysteresisThresholding img low high).grayAt x y = 255) ∧
    ((1 ≤ x ∧ x < img.rect.maxX - 1 ∧ 1 ≤ y ∧ y < img.rect.maxY - 1) →
      (hysteresisThresholding img low high).grayAt x y = 0 ∨
      (hysteresisThresholding img low high).grayAt x y = 255) ∧
    (¬(1 ≤ x ∧ x < img.rect.maxX - 1 ∧ 1 ≤ y ∧ y < img.rect.maxY - 1) →
      (hysteresisThresholding img low high).grayAt x y =
        (hystPass1 img low high).grayAt x y) ∧
    (¬(1 ≤ x ∧ x < img.rect.maxX - 1 ∧ 1 ≤ y ∧ y < img.rect.maxY - 1) →
      low ≤ (img.grayAt x y : ℚ) → ¬high ≤ (img.grayAt x y : ℚ) →
      (hysteresisThresholding img low high).grayAt x y = 75) := by
  by_cases hint : 1 ≤ x ∧ x < img.rect.maxX - 1 ∧ 1 ≤ y ∧ y < img.rect.maxY - 1
  · obtain ⟨spec1, spec2⟩ :=
      hysteresis_zone_spec img low high hin hint.1 hint.2.1 hint.2.2.1 hint.2.2.2
    have hrange : (hysteresisThresholding img low high).grayAt x y = 0 ∨
        (hysteresisThresholding img low high).grayAt x y = 255 := by
      rcases hystPass1_grayAt_cases img low high x y with h0 | h75 | h255
      · exact Or.inl (by rw [spec1 (by rw [h0]; norm_num), h0])
      · exact (spec2 h75).1
      · exact Or.inr (by rw [spec1 (by rw [h255]; norm_num), h255])
    exact ⟨hrange.imp id Or.inr, fun _ => hrange, fun hni => absurd hint hni,
      fun hni _ _ => absurd hint hni⟩
  · have hnotmem : (x, y) ∉ pass2Coords img.rect.maxX img.rect.maxY := fun hmem =>
      hint ((mem_pass2Coords _ _ _ _).mp hmem)
    have hb : (hysteresisThresholding img low high).grayAt x y =
        (hystPass1 img low high).grayAt x y := foldl_grayAt_not_mem _ _ hnotmem
    refine ⟨?_, fun hcontra => absurd hcontra hint, fun _ => hb, fun _ hlow hhigh => ?_⟩
    · rw [hb]
      exact hystPass1_grayAt_cases img low high x y
    · rw [hb, hystPass1_grayAt_mem img low high hin, if_neg hhigh, if_pos hlow]

/-- Witness for `hysteresis_output_range`: a zero-origin 3 x 3 image of
constant value 50 with thresholds 10 and 100 leaves the border pixel
`(0, 0)` weak. -/
theorem hysteresis_output_range_witness :
    ((hysteresisThresholding ⟨⟨0, 0, 3, 3⟩, fun _ _ => 50⟩ 10 100).grayAt 0 0 = 0 ∨
      (hysteresisThresholding ⟨⟨0, 0, 3, 3⟩, fun _ _ => 50⟩ 10 100).grayAt 0 0 = 75 ∨
      (hysteresisThresholding ⟨⟨0, 0, 3, 3⟩, fun _ _ => 50⟩ 10 100).grayAt 0 0 = 255) ∧
    ((1 ≤ (0 : ℤ) ∧ (0 : ℤ) < (⟨⟨0, 0, 3, 3⟩, fun _ _ => 50⟩ : GraySub).rect.maxX - 1 ∧
        1 ≤ (0 : ℤ) ∧ (0 : ℤ) < (⟨⟨0, 0, 3, 3⟩, fun _ _ => 50⟩ : GraySub).rect.maxY - 1) →
      (hysteresisThresholding ⟨⟨0, 0, 3, 3⟩, fun _ _ => 50⟩ 10 100).grayAt 0 0 = 0 ∨
      (hysteresisThresholding ⟨⟨0, 0, 3, 3⟩, fun _ _ => 50⟩ 10 100).grayAt 0 0 = 255) ∧
    (¬(1 ≤ (0 : ℤ) ∧ (0 : ℤ) < (⟨⟨0, 0, 3, 3⟩, fun _ _ => 50⟩ : GraySub).rect.maxX - 1 ∧
        1 ≤ (0 : ℤ) ∧ (0 : ℤ) < (⟨⟨0, 0, 3, 3⟩, fun _ _ => 50⟩ : GraySub).rect.maxY - 1) →
      (hysteresisThresholding ⟨⟨0, 0, 3, 3⟩, fun _ _ => 50⟩ 10 100).grayAt 0 0 =
        (hystPass1 ⟨⟨0, 0, 3, 3⟩, fun _ _ => 50⟩ 10 100).grayAt 0 0) ∧
    (¬(1 ≤ (0 : ℤ) ∧ (0 : ℤ) < (⟨⟨0, 0, 3, 3⟩, fun _ _ => 50⟩ : GraySub).rect.maxX - 1 ∧
        1 ≤ (0 : ℤ) ∧ (0 : ℤ) < (⟨⟨0, 0, 3, 3⟩, fun _ _ => 50⟩ : GraySub).rect.maxY - 1) →
      10 ≤ ((⟨⟨0, 0, 3, 3⟩, fun _ _ => 50⟩ : GraySub).grayAt 0 0 : ℚ) →
      ¬(100 : ℚ) ≤ ((⟨⟨0, 0, 3, 3⟩, fun _ _ => 50⟩ : GraySub).grayAt 0 0 : ℚ) →
      (hysteresisThresholding ⟨⟨0, 0, 3, 3⟩, fun _ _ => 50⟩ 10 100).grayAt 0 0 = 75) :=
  hysteresis_output_range ⟨⟨0, 0, 3, 3⟩, fun _ _ => 50⟩ 10 100 0 0 (by decide)

/-- C10, counterexample: on the band sub-image with bounds
`[0, 3) x [2, 5)` and constant value 50, thresholds 10 and 100, the pixel
`(1, 2)` lies on the outermost top row of the bounds and is weak after
pass 1, yet the output value is 0, not 75: pass 2 visits it because the
loops start at the literal 1, not at `Min.Y + 1`. -/
theorem hysteresis_band_counterexample :
    (⟨⟨0, 2, 3, 5⟩, fun _ _ => 50⟩ : GraySub).rect.mem 1 2 ∧
    (⟨⟨0, 2, 3, 5⟩, fun _ _ => 50⟩ : GraySub).rect.minY = 2 ∧
    (hystPass1 ⟨⟨0, 2, 3, 5⟩, fun _ _ => 50⟩ 10 100).grayAt 1 2 = 75 ∧
    (hysteresisThresholding ⟨⟨0, 2, 3, 5⟩, fun _ _ => 50⟩ 10 100).grayAt 1 2 = 0 := by
  decide

/-- C4, counterexample: on the zero-origin constant 3 x 3 image of value 50
with thresholds 10 and 100 the output pixel `(0, 0)` is 75, so the result
is not everywhere 0 or 255 as the claim states. -/
theorem hysteresis_counterexample :
    (hysteresisThresholding ⟨⟨0, 0, 3, 3⟩, fun _ _ => 50⟩ 10 100).grayAt 0 0 = 75 ∧
    ¬((hysteresisThresholding ⟨⟨0, 0, 3, 3⟩, fun _ _ => 50⟩ 10 100).grayAt 0 0 = 0 ∨
      (hysteresisThresholding ⟨⟨0, 0, 3, 3⟩, fun _ _ => 50⟩ 10 100).grayAt 0 0 = 255) := by
  decide

/-- C4, amended: pass 2 visits exactly the coordinates in
`[1, Max.X-2] x [1, Max.Y-2]`, whatever the rectangle's `Min` is — the
strict interior only for zero-origin images; on band sub-images with
`Min.Y >= 1` this includes the top border row.  For a visited pixel of the
bounds: a strong pass-1 pixel stays 255, a zero pass-1 pixel stays 0, a
weak pass-1 pixel becomes 0 or 255, it becomes 255 whenever some
8-neighbour is strong in pass 1, and — because pass 2 reads the partially
updated image, so promotion can cascade along the scan order — a visited
255 of the output is either strong in pass 1 or has an 8-neighbour that is
255 in the final output.  A pixel of the bounds outside the visited zone
keeps its pass-1 label, so such weak pixels remain 75. -/
theorem hysteresis_pass2_rule (img : GraySub) (low high : ℚ) (x y : ℤ)
    (hin : img.rect.mem x y) :
    ((1 ≤ x ∧ x < img.rect.maxX - 1 ∧ 1 ≤ y ∧ y < img.rect.maxY - 1) →
      ((hystPass1 img low high).grayAt x y = 255 →
        (hysteresisThresholding img low high).grayAt x y = 255) ∧
      ((hystPass1 img low high).grayAt x y = 0 →
        (hysteresisThresholding img low high).grayAt x y = 0) ∧
      ((hystPass1 img low high).grayAt x y = 75 →
        (hysteresisThresholding img low high).grayAt x y = 0 ∨
        (hysteresisThresholding img low high).grayAt x y = 255) ∧
      ((hystPass1 img low high).grayAt x y = 75 →
        isConnectedToStrong (hystPass1 img low high) x y →
        (hysteresisThresholding img low high).grayAt x y = 255) ∧
      ((hysteresisThresholding img low high).grayAt x y = 255 →
        (hystPass1 img low high).grayAt x y = 255 ∨
        ((hystPass1 img low high).grayAt x y = 75 ∧
          isConnectedToStrong (hysteresisThresholding img low high) x y))) ∧
    (¬(1 ≤ x ∧ x < img.rect.maxX - 1 ∧ 1 ≤ y ∧ y < img.rect.maxY - 1) →
      (hysteresisThresholding img low high).grayAt x y =
        (hystPass1 img low high).grayAt x y) := by
  constructor
  · intro hint
    obtain ⟨spec1, spec2⟩ :=
      hysteresis_zone_spec img low high hin hint.1 hint.2.1 hint.2.2.1 hint.2.2.2
    refine ⟨fun h255 => by rw [spec1 (by rw [h255]; norm_num), h255],
      fun h0 => by rw [spec1 (by rw [h0]; norm_num), h0],
      fun h75 => (spec2 h75).1,
      fun h75 hc => (spec2 h75).2.1 hc,
      fun hout => ?_⟩
    rcases hystPass1_grayAt_cases img low high x y with h0 | h75 | h255
    · rw [spec1 (by rw [h0]; norm_num), h0] at hout
      norm_num at hout
    · exact Or.inr ⟨h75, (spec2 h75).2.2 hout⟩
    · exact Or.inl h255
  · intro hni
    have hnotmem : (x, y) ∉ pass2Coords img.rect.maxX img.rect.maxY := fun hmem =>
      hni ((mem_pass2Coords _ _ _ _).mp hmem)
    exact foldl_grayAt_not_mem _ _ hnotmem

/-- Witness for `hysteresis_pass2_rule` at the visited pixel `(1, 1)` of a
zero-origin 3 x 3 image. -/
theorem hysteresis_pass2_rule_witness :
    ((1 ≤ (1 : ℤ) ∧ (1 : ℤ) < (⟨⟨0, 0, 3, 3⟩, fun _ _ => 50⟩ : GraySub).rect.maxX - 1 ∧
        1 ≤ (1 : ℤ) ∧ (1 : ℤ) < (⟨⟨0, 0, 3, 3⟩, fun _ _ => 50⟩ : GraySub).rect.maxY - 1) →
      ((hystPass1 ⟨⟨0, 0, 3, 3⟩, fun _ _ => 50⟩ 10 100).grayAt 1 1 = 255 →
        (hysteresisThresholding ⟨⟨0, 0, 3, 3⟩, fun _ _ => 50⟩ 10 100).grayAt 1 1 = 255) ∧
      ((hystPass1 ⟨⟨0, 0, 3, 3⟩, fun _ _ => 50⟩ 10 100).grayAt 1 1 = 0 →
        (hysteresisThresholding ⟨⟨0, 0, 3, 3⟩, fun _ _ => 50⟩ 10 100).grayAt 1 1 = 0) ∧
      ((hystPass1 ⟨⟨0, 0, 3, 3⟩, fun _ _ => 50⟩ 10 100).grayAt 1 1 = 75 →
        (hysteresisThresholding ⟨⟨0, 0, 3, 3⟩, fun _ _ => 50⟩ 10 100).grayAt 1 1 = 0 ∨
        (hysteresisThresholding ⟨⟨0, 0, 3, 3⟩, fun _ _ => 50⟩ 10 100).grayAt 1 1 = 255) ∧
      ((hystPass1 ⟨⟨0, 0, 3, 3⟩, fun _ _ => 50⟩ 10 100).grayAt 1 1 = 75 →
        isConnectedToStrong (hystPass1 ⟨⟨0, 0, 3, 3⟩, fun _ _ => 50⟩ 10 100) 1 1 →
        (hysteresisThresholding ⟨⟨0, 0, 3, 3⟩, fun _ _ => 50⟩ 10 100).grayAt 1 1 = 255) ∧
      ((hysteresisThresholding ⟨⟨0, 0, 3, 3⟩, fun _ _ => 50⟩ 10 100).grayAt 1 1 = 255 →
        (hystPass1 ⟨⟨0, 0, 3, 3⟩, fun _ _ => 50⟩ 10 100).grayAt 1 1 = 255 ∨
        ((hystPass1 ⟨⟨0, 0, 3, 3⟩, fun _ _ => 50⟩ 10 100).grayAt 1 1 = 75 ∧
          isConnectedToStrong
            (hysteresisThresholding ⟨⟨0, 0, 3, 3⟩, fun _ _ => 50⟩ 10 100) 1 1))) ∧
    (¬(1 ≤ (1 : ℤ) ∧ (1 : ℤ) < (⟨⟨0, 0, 3, 3⟩, fun _ _ => 50⟩ : GraySub).rect.maxX - 1 ∧
        1 ≤ (1 : ℤ) ∧ (1 : ℤ) < (⟨⟨0, 0, 3, 3⟩, fun _ _ => 50⟩ : GraySub).rect.maxY - 1) →
      (hysteresisThresholding ⟨⟨0, 0, 3, 3⟩, fun _ _ => 50⟩ 10 100).grayAt 1 1 =
        (hystPass1 ⟨⟨0, 0, 3, 3⟩, fun _ _ => 50⟩ 10 100).grayAt 1 1) :=
  hysteresis_pass2_rule ⟨⟨0, 0, 3, 3⟩, fun _ _ => 50⟩ 10 100 1 1 (by decide)

theorem IsWhite_inBounds {img : GrayImage} {x y : ℤ} (h : IsWhite img x y) :
    img.inBounds x y := by
  unfold IsWhite grayAt at h
  by_contra hn
  rw [if_neg hn] at h
  omega

theorem mem_whiteFinset {img : GrayImage} {x y : ℤ} :
    (x, y) ∈ whiteFinset img ↔ IsWhite img x y := by
  unfold whiteFinset boundsFinset
  rw [Finset.mem_filter]
  constructor
  · rintro ⟨-, hw⟩
    exact hw
  · intro hw
    have hb := IsWhite_inBounds hw
    unfold GrayImage.inBounds at hb
    refine ⟨Finset.mem_image.mpr ⟨(x.toNat, y.toNat), ?_, ?_⟩, hw⟩
    · rw [Finset.mem_product]
      constructor <;> rw [Finset.mem_range] <;> omega
    · rw [Prod.mk.injEq]
      constructor <;> omega

theorem reaches_white {img : GrayImage} {p q : ℤ × ℤ} (hw : IsWhite img p.1 p.2)
    (h : Reaches img p q) : IsWhite img q.1 q.2 := by
  induction h with
  | refl => exact hw
  | tail _ hstep _ => exact hstep.1

theorem adjacent_symm {p q : ℤ × ℤ} (h : Adjacent p q) : Adjacent q p := by
  unfold Adjacent bfsDirections at h ⊢
  simp only [List.mem_cons, List.not_mem_nil, or_false, Prod.mk.injEq] at h ⊢
  rcases h with ⟨h1, h2⟩ | ⟨h1, h2⟩ | ⟨h1, h2⟩ | ⟨h1, h2⟩ | ⟨h1, h2⟩ | ⟨h1, h2⟩ | ⟨h1, h2⟩ |
    ⟨h1, h2⟩ <;> omega

theorem reaches_symm {img : GrayImage} {p q : ℤ × ℤ} (hw : IsWhite img p.1 p.2)
    (h : Reaches img p q) : Reaches img q p := by
  induction h with
  | refl => exact Relation.ReflTransGen.refl
  | tail hab hstep ih =>
    refine Relation.ReflTransGen.trans (Relation.ReflTransGen.single ?_) ih
    exact ⟨reaches_white hw hab, adjacent_symm hstep.2⟩

theorem reaches_trans {img : GrayImage} {p q r : ℤ × ℤ} (h1 : Reaches img p q)
    (h2 : Reaches img q r) : Reaches img p r :=
  Relation.ReflTransGen.trans h1 h2

/-- Two members of the same component generate the same component. -/
theorem reaches_congr {img : GrayImage} {p q : ℤ × ℤ} (hw : IsWhite img p.1 p.2)
    (hpq : Reaches img p q) (r : ℤ × ℤ) : Reaches img q r ↔ Reaches img p r :=
  ⟨fun h => reaches_trans hpq h, fun h => reaches_trans (reaches_symm hw hpq) h⟩

/-- Invariant-based specification of the BFS loop: starting from any state
whose queue and contour hold only points of the component of `start`, whose
visited set is the already-collected contour plus a set `V₀` disjoint from
the component, and whose collected points have all their discovered
neighbours visited or queued, the loop returns exactly the component of
`start` (with no duplicates) and marks it visited. -/
theorem bfsLoop_invariant (img : GrayImage) (V₀ : Finset (ℤ × ℤ)) (start : ℤ × ℤ)
    (hstart : IsWhite img start.1 start.2)
    (hV₀ : ∀ q, Reaches img start q → q ∉ V₀) :
    ∀ (queue : List (ℤ × ℤ)) (visited : Finset (ℤ × ℤ)) (contour : List (ℤ × ℤ))
      (hq : ∀ p ∈ queue, IsWhite img p.1 p.2),
      (∀ p ∈ queue, Reaches img start p) →
      (∀ c ∈ contour, Reaches img start c) →
      contour.Nodup →
      visited = V₀ ∪ contour.toFinset →
      (∀ c ∈ contour, ∀ q, WStep img c q → q ∈ visited ∨ q ∈ queue) →
      (start ∈ contour ∨ start ∈ queue) →
      (∀ c ∈ (bfsLoop img queue visited contour hq).1, Reaches img start c) ∧
      (∀ q, Reaches img start q → q ∈ (bfsLoop img queue visited contour hq).1) ∧
      (bfsLoop img queue visited contour hq).1.Nodup ∧
      (bfsLoop img queue visited contour hq).2 =
        V₀ ∪ (bfsLoop img queue visited contour hq).1.toFinset := by
  intro queue visited contour hq
  induction queue, visited, contour, hq using bfsLoop.induct img with
  | case1 visited contour hq _ =>
    intro hI1 hI2 hI3 hI4 hI6 hI7
    have hstartc : start ∈ contour := by
      rcases hI7 with h | h
      · exact h
      · exact absurd h (List.not_mem_nil _)
    simp only [bfsLoop]
    refine ⟨hI2, ?_, hI3, hI4⟩
    intro q hreach
    induction hreach with
    | refl => exact hstartc
    | tail hab hstep ih =>
      rcases hI6 _ ih _ hstep with hvis | hqueue
      · rw [hI4] at hvis
        rcases Finset.mem_union.mp hvis with hV | hc
        · exact absurd hV (hV₀ _ (Relation.ReflTransGen.tail hab hstep))
        · exact List.mem_toFinset.mp hc
      · exact absurd hqueue (List.not_mem_nil _)
  | case2 visited contour curr rest hq hv _ ih =>
    intro hI1 hI2 hI3 hI4 hI6 hI7
    simp only [bfsLoop]
    rw [dif_pos hv]
    refine ih ?_ hI2 hI3 hI4 ?_ ?_
    · intro p hp
      exact hI1 p (List.mem_cons_of_mem _ hp)
    · intro c hc q hwq
      rcases hI6 c hc q hwq with h | h
      · exact Or.inl h
      · rcases List.mem_cons.mp h with rfl | h2
        · exact Or.inl hv
        · exact Or.inr h2
    · rcases hI7 with h | h
      · exact Or.inl h
      · rcases List.mem_cons.mp h with rfl | h2
        · left
          rw [hI4] at hv
          rcases Finset.mem_union.mp hv with hV | hc
          · exact absurd hV (hV₀ _ Relation.ReflTransGen.refl)
          · exact List.mem_toFinset.mp hc
        · exact Or.inr h2
  | case3 visited contour curr rest hq hv _ ih =>
    intro hI1 hI2 hI3 hI4 hI6 hI7
    have hcurrw : IsWhite img curr.1 curr.2 := hq curr (List.mem_cons_self _ _)
    have hcurrR : Reaches img start curr := hI1 curr (List.mem_cons_self _ _)
    have hcurrnc : curr ∉ contour := by
      intro hc
      apply hv
      rw [hI4]
      exact Finset.mem_union_right _ (List.mem_toFinset.mpr hc)
    simp only [bfsLoop]
    rw [dif_neg hv]
    refine ih ?_ ?_ ?_ ?_ ?_ ?_
    · intro p hp
      rcases List.mem_append.mp hp with h1 | h2
      · exact hI1 p (List.mem_cons_of_mem _ h1)
      · obtain ⟨d, hd, hsome⟩ := List.mem_filterMap.mp h2
        by_cases hcond : IsWhite img (curr.1 + d.1) (curr.2 + d.2) ∧
            (curr.1 + d.1, curr.2 + d.2) ∉ insert curr visited
        · rw [dif_pos hcond] at hsome
          rw [← Option.some_inj.mp hsome]
          refine Relation.ReflTransGen.tail hcurrR ⟨hcond.1, ?_⟩
          have hpair : ((curr.1 + d.1) - curr.1, (curr.2 + d.2) - curr.2) = d := by
            rw [Prod.mk.injEq]
            omega
          unfold Adjacent
          rw [hpair]
          exact hd
        · rw [dif_neg hcond] at hsome
          exact absurd hsome (by simp)
    · intro c hc
      rcases List.mem_append.mp hc with h1 | h2
      · exact hI2 c h1
      · rw [List.mem_singleton.mp h2]
        exact hcurrR
    · rw [List.nodup_append]
      refine ⟨hI3, List.nodup_singleton _, ?_⟩
      intro a ha hb
      rw [List.mem_singleton] at hb
      rw [hb] at ha
      exact hcurrnc ha
    · rw [hI4]
      ext a
      simp only [Finset.mem_insert, Finset.mem_union, List.mem_toFinset, List.mem_append,
        List.mem_singleton]
      tauto
    · intro c hc q hwq
      rcases List.mem_append.mp hc with h1 | h2
      · rcases hI6 c h1 q hwq with hvis | hqueue
        · exact Or.inl (Finset.mem_insert_of_mem hvis)
        · rcases List.mem_cons.mp hqueue with rfl | h3
          · exact Or.inl (Finset.mem_insert_self _ _)
          · exact Or.inr (List.mem_append_left _ h3)
      · obtain rfl := (List.mem_singleton.mp h2).symm
        by_cases hqvis : q ∈ insert curr visited
        · exact Or.inl hqvis
        · refine Or.inr (List.mem_append_right _ ?_)
          refine List.mem_filterMap.mpr ⟨(q.1 - curr.1, q.2 - curr.2), hwq.2, ?_⟩
          have hx : curr.1 + (q.1 - curr.1) = q.1 := by omega
          have hy : curr.2 + (q.2 - curr.2) = q.2 := by omega
          have hcond : IsWhite img (curr.1 + (q.1 - curr.1)) (curr.2 + (q.2 - curr.2)) ∧
              (curr.1 + (q.1 - curr.1), curr.2 + (q.2 - curr.2)) ∉ insert curr visited := by
            rw [hx, hy]
            exact ⟨hwq.1, hqvis⟩
          rw [dif_pos hcond, Option.some_inj, Prod.mk.injEq]
          constructor <;> omega
    · rcases hI7 with h | h
      · exact Or.inl (List.mem_append_left _ h)
      · rcases List.mem_cons.mp h with rfl | h2
        · exact Or.inl (List.mem_append_right _ (List.mem_singleton_self _))
        · exact Or.inr (List.mem_append_left _ h2)

/-- Running the BFS from a white start point whose component is disjoint
from the initial visited set collects exactly the component. -/
theorem bfsLoop_run (img : GrayImage) (start : ℤ × ℤ) (V₀ : Finset (ℤ × ℤ))
    (hq : ∀ p ∈ [start], IsWhite img p.1 p.2)
    (hV₀ : ∀ q, Reaches img start q → q ∉ V₀) :
    (∀ q, q ∈ (bfsLoop img [start] V₀ [] hq).1 ↔ Reaches img start q) ∧
    (bfsLoop img [start] V₀ [] hq).1.Nodup ∧
    (bfsLoop img [start] V₀ [] hq).2 = V₀ ∪ (bfsLoop img [start] V₀ [] hq).1.toFinset := by
  have hstart : IsWhite img start.1 start.2 := hq start (List.mem_singleton_self _)
  obtain ⟨h1, h2, h3, h4⟩ := bfsLoop_invariant img V₀ start hstart hV₀ [start] V₀ [] hq
    (by
      intro p hp
      rw [List.mem_singleton.mp hp]
      exact Relation.ReflTransGen.refl)
    (by intro c hc; exact absurd hc (List.not_mem_nil _))
    List.nodup_nil
    (by simp)
    (by intro c hc; exact absurd hc (List.not_mem_nil _))
    (Or.inr (List.mem_singleton_self _))
  exact ⟨fun q => ⟨h1 q, h2 q⟩, h3, h4⟩

/-- Specification of the scan fold of `FindContoursBFS`.  Starting from a
visited set that is white and closed under reachability and a list of
contours whose points are all visited, the fold appends exactly one contour
per newly discovered component: the appended contours are duplicate-free,
have more than 50 points, and enumerate the component of some scanned white
pixel; and for every scanned white pixel not yet visited, its component is
appended exactly once when it has more than 50 points and never otherwise. -/
theorem scan_foldl_spec (img : GrayImage) :
    ∀ (todo : List (ℤ × ℤ)) (V : Finset (ℤ × ℤ)) (L : List (List (ℤ × ℤ))),
      (∀ v ∈ V, IsWhite img v.1 v.2) →
      (∀ v ∈ V, ∀ q, Reaches img v q → q ∈ V) →
      (∀ C ∈ L, ∀ q ∈ C, q ∈ V) →
      (∃ Lnew, (todo.foldl (scanStep img) (V, L)).2 = L ++ Lnew ∧
        ∀ C ∈ Lnew, C.Nodup ∧ 50 < C.length ∧
          ∃ p, p ∈ todo ∧ IsWhite img p.1 p.2 ∧ p ∉ V ∧ (∀ q, q ∈ C ↔ Reaches img p q)) ∧
      (∀ p ∈ todo, IsWhite img p.1 p.2 → p ∉ V →
        ∀ S : Finset (ℤ × ℤ), (∀ q, q ∈ S ↔ Reaches img p q) →
          (50 < S.card →
            ((todo.foldl (scanStep img) (V, L)).2.countP fun C => decide (C.toFinset = S)) =
              (L.countP fun C => decide (C.toFinset = S)) + 1) ∧
          (¬50 < S.card →
            ((todo.foldl (scanStep img) (V, L)).2.countP fun C => decide (C.toFinset = S)) =
              (L.countP fun C => decide (C.toFinset = S)))) := by
  intro todo
  induction todo with
  | nil =>
    intro V L hVW hVC hLV
    refine ⟨⟨[], by simp, by simp⟩, ?_⟩
    intro p hp
    exact absurd hp (List.not_mem_nil _)
  | cons p rest IH =>
    intro V L hVW hVC hLV
    rw [List.foldl_cons]
    by_cases hcond : IsWhite img p.1 p.2 ∧ p ∉ V
    · -- a new component is explored
      have hq1 : ∀ q ∈ [p], IsWhite img q.1 q.2 := by
        intro q hqm
        rw [List.mem_singleton.mp hqm]
        exact hcond.1
      have hdisj : ∀ q, Reaches img p q → q ∉ V := by
        intro q hreach hqV
        exact hcond.2 (hVC q hqV p (reaches_symm hcond.1 hreach))
      obtain ⟨hmem, hnd, hvis⟩ := bfsLoop_run img p V hq1 hdisj
      have hstep : scanStep img (V, L) p = ((bfsLoop img [p] V [] hq1).2,
          if 50 < (bfsLoop img [p] V [] hq1).1.length then
            L ++ [(bfsLoop img [p] V [] hq1).1] else L) := by
        unfold scanStep
        rw [dif_pos hcond]
      rw [hstep, hvis]
      have hCw : ∀ q ∈ (bfsLoop img [p] V [] hq1).1, IsWhite img q.1 q.2 := by
        intro q hqm
        exact reaches_white hcond.1 ((hmem q).mp hqm)
      have hVW2 : ∀ v ∈ V ∪ (bfsLoop img [p] V [] hq1).1.toFinset, IsWhite img v.1 v.2 := by
        intro v hvm
        rcases Finset.mem_union.mp hvm with h | h
        · exact hVW v h
        · exact hCw v (List.mem_toFinset.mp h)
      have hVC2 : ∀ v ∈ V ∪ (bfsLoop img [p] V [] hq1).1.toFinset, ∀ q, Reaches img v q →
          q ∈ V ∪ (bfsLoop img [p] V [] hq1).1.toFinset := by
        intro v hvm q hreach
        rcases Finset.mem_union.mp hvm with h | h
        · exact Finset.mem_union_left _ (hVC v h q hreach)
        · refine Finset.mem_union_right _ (List.mem_toFinset.mpr ((hmem q).mpr ?_))
          exact reaches_trans ((hmem v).mp (List.mem_toFinset.mp h)) hreach
      have hpinC : p ∈ (bfsLoop img [p] V [] hq1).1 := (hmem p).mpr Relation.ReflTransGen.refl
      -- the component discovered at `p`, compared with an arbitrary aligned finset
      have hSC : ∀ S : Finset (ℤ × ℤ), (∀ q, q ∈ S ↔ Reaches img p q) →
          S = (bfsLoop img [p] V [] hq1).1.toFinset := by
        intro S hS
        ext q
        rw [hS q, List.mem_toFinset, hmem q]
      have hcard : ((bfsLoop img [p] V [] hq1).1.toFinset).card =
          (bfsLoop img [p] V [] hq1).1.length := List.toFinset_card_of_nodup hnd
      by_cases hbig : 50 < (bfsLoop img [p] V [] hq1).1.length
      · rw [if_pos hbig]
        have hLV2 : ∀ C ∈ L ++ [(bfsLoop img [p] V [] hq1).1], ∀ q ∈ C,
            q ∈ V ∪ (bfsLoop img [p] V [] hq1).1.toFinset := by
          intro C hC q hqC
          rcases List.mem_append.mp hC with h | h
          · exact Finset.mem_union_left _ (hLV C h q hqC)
          · rw [List.mem_singleton.mp h] at hqC
            exact Finset.mem_union_right _ (List.mem_toFinset.mpr hqC)
        obtain ⟨⟨Lnew2, hsplit2, hprops2⟩, hcount2⟩ :=
          IH (V ∪ (bfsLoop img [p] V [] hq1).1.toFinset)
            (L ++ [(bfsLoop img [p] V [] hq1).1]) hVW2 hVC2 hLV2
        have hnew0 : ∀ S : Finset (ℤ × ℤ), (∀ q, q ∈ S ↔ Reaches img p q) →
            (Lnew2.countP fun C => decide (C.toFinset = S)) = 0 := by
          intro S hS
          rw [List.countP_eq_zero]
          intro D hD
          obtain ⟨-, -, p2, -, -, hp2nv, hD2⟩ := hprops2 D hD
          rw [decide_eq_true_eq]
          intro hDS
          apply hp2nv
          refine Finset.mem_union_right _ (List.mem_toFinset.mpr ((hmem p2).mpr ?_))
          have : p2 ∈ S := by
            rw [← hDS]
            exact List.mem_toFinset.mpr ((hD2 p2).mpr Relation.ReflTransGen.refl)
          exact (hS p2).mp this
        have hkey : ∀ S : Finset (ℤ × ℤ), (∀ q, q ∈ S ↔ Reaches img p q) →
            (50 < S.card →
              ((rest.foldl (scanStep img) (V ∪ (bfsLoop img [p] V [] hq1).1.toFinset,
                L ++ [(bfsLoop img [p] V [] hq1).1])).2.countP
                  fun C => decide (C.toFinset = S)) =
                (L.countP fun C => decide (C.toFinset = S)) + 1) ∧
            (¬50 < S.card →
              ((rest.foldl (scanStep img) (V ∪ (bfsLoop img [p] V [] hq1).1.toFinset,
                L ++ [(bfsLoop img [p] V [] hq1).1])).2.countP
                  fun C => decide (C.toFinset = S)) =
                (L.countP fun C => decide (C.toFinset = S))) := by
          intro S hS
          have hSeq := hSC S hS
          have hScard : 50 < S.card := by
            rw [hSeq, hcard]
            exact hbig
          refine ⟨fun _ => ?_, fun hns => absurd hScard hns⟩
          rw [hsplit2, List.countP_append, List.countP_append, hnew0 S hS,
            List.countP_cons, List.countP_nil]
          have hpred : (decide ((bfsLoop img [p] V [] hq1).1.toFinset = S)) = true := by
            rw [decide_eq_true_eq, hSeq]
          rw [hpred]
          simp
        refine ⟨⟨(bfsLoop img [p] V [] hq1).1 :: Lnew2, by rw [hsplit2]; simp, ?_⟩, ?_⟩
        · intro C hC
          rcases List.mem_cons.mp hC with rfl | hC2
          · exact ⟨hnd, hbig, p, List.mem_cons_self _ _, hcond.1, hcond.2, hmem⟩
          · obtain ⟨hnd2, hlen2, p2, hp2mem, hp2w, hp2nv, hC3⟩ := hprops2 C hC2
            exact ⟨hnd2, hlen2, p2, List.mem_cons_of_mem _ hp2mem, hp2w,
              fun hv => hp2nv (Finset.mem_union_left _ hv), hC3⟩
        · intro p3 hp3 hw3 hnv3 S hS
          rcases List.mem_cons.mp hp3 with rfl | hp3r
          · exact hkey S hS
          · by_cases hv3 : p3 ∈ V ∪ (bfsLoop img [p] V [] hq1).1.toFinset
            · have hp3C : p3 ∈ (bfsLoop img [p] V [] hq1).1 := by
                rcases Finset.mem_union.mp hv3 with h | h
                · exact absurd h hnv3
                · exact List.mem_toFinset.mp h
              have hreach3 : Reaches img p p3 := (hmem p3).mp hp3C
              have hS2 : ∀ q, q ∈ S ↔ Reaches img p q := fun q =>
                (hS q).trans (reaches_congr hcond.1 hreach3 q)
              exact hkey S hS2
            · obtain ⟨hc1, hc2⟩ := hcount2 p3 hp3r hw3 hv3 S hS
              have hmid : ((L ++ [(bfsLoop img [p] V [] hq1).1]).countP
                  fun C => decide (C.toFinset = S)) =
                  (L.countP fun C => decide (C.toFinset = S)) := by
                rw [List.countP_append, List.countP_cons, List.countP_nil]
                have hpred : (decide ((bfsLoop img [p] V [] hq1).1.toFinset = S)) = false := by
                  rw [decide_eq_false_iff_not]
                  intro hDS
                  apply hv3
                  refine Finset.mem_union_right _ ?_
                  rw [hDS]
                  exact (hS p3).mpr Relation.ReflTransGen.refl
                rw [hpred]
                simp
              rw [hmid] at hc1 hc2
              exact ⟨hc1, hc2⟩
      · rw [if_neg hbig]
        have hLV2 : ∀ C ∈ L, ∀ q ∈ C, q ∈ V ∪ (bfsLoop img [p] V [] hq1).1.toFinset := by
          intro C hC q hqC
          exact Finset.mem_union_left _ (hLV C hC q hqC)
        obtain ⟨⟨Lnew2, hsplit2, hprops2⟩, hcount2⟩ :=
          IH (V ∪ (bfsLoop img [p] V [] hq1).1.toFinset) L hVW2 hVC2 hLV2
        have hnew0 : ∀ S : Finset (ℤ × ℤ), (∀ q, q ∈ S ↔ Reaches img p q) →
            (Lnew2.countP fun C => decide (C.toFinset = S)) = 0 := by
          intro S hS
          rw [List.countP_eq_zero]
          intro D hD
          obtain ⟨-, -, p2, -, -, hp2nv, hD2⟩ := hprops2 D hD
          rw [decide_eq_true_eq]
          intro hDS
          apply hp2nv
          refine Finset.mem_union_right _ (List.mem_toFinset.mpr ((hmem p2).mpr ?_))
          have : p2 ∈ S := by
            rw [← hDS]
            exact List.mem_toFinset.mpr ((hD2 p2).mpr Relation.ReflTransGen.refl)
          exact (hS p2).mp this
        have hkey : ∀ S : Finset (ℤ × ℤ), (∀ q, q ∈ S ↔ Reaches img p q) →
            (50 < S.card →
              ((rest.foldl (scanStep img)
                (V ∪ (bfsLoop img [p] V [] hq1).1.toFinset, L)).2.countP
                  fun C => decide (C.toFinset = S)) =
                (L.countP fun C => decide (C.toFinset = S)) + 1) ∧
            (¬50 < S.card →
              ((rest.foldl (scanStep img)
                (V ∪ (bfsLoop img [p] V [] hq1).1.toFinset, L)).2.countP
                  fun C => decide (C.toFinset = S)) =
                (L.countP fun C => decide (C.toFinset = S))) := by
          intro S hS
          have hSeq := hSC S hS
          have hScard : ¬50 < S.card := by
            rw [hSeq, hcard]
            exact hbig
          refine ⟨fun hs => absurd hs hScard, fun _ => ?_⟩
          rw [hsplit2, List.countP_append, hnew0 S hS]
          omega
        refine ⟨⟨Lnew2, hsplit2, ?_⟩, ?_⟩
        · intro C hC
          obtain ⟨hnd2, hlen2, p2, hp2mem, hp2w, hp2nv, hC3⟩ := hprops2 C hC
          exact ⟨hnd2, hlen2, p2, List.mem_cons_of_mem _ hp2mem, hp2w,
            fun hv => hp2nv (Finset.mem_union_left _ hv), hC3⟩
        · intro p3 hp3 hw3 hnv3 S hS
          rcases List.mem_cons.mp hp3 with rfl | hp3r
          · exact hkey S hS
          · by_cases hv3 : p3 ∈ V ∪ (bfsLoop img [p] V [] hq1).1.toFinset
            · have hp3C : p3 ∈ (bfsLoop img [p] V [] hq1).1 := by
                rcases Finset.mem_union.mp hv3 with h | h
                · exact absurd h hnv3
                · exact List.mem_toFinset.mp h
              have hreach3 : Reaches img p p3 := (hmem p3).mp hp3C
              have hS2 : ∀ q, q ∈ S ↔ Reaches img p q := fun q =>
                (hS q).trans (reaches_congr hcond.1 hreach3 q)
              exact hkey S hS2
            · exact hcount2 p3 hp3r hw3 hv3 S hS
    · -- pixel not white or already visited: the state is unchanged
      have hstep : scanStep img (V, L) p = (V, L) := by
        unfold scanStep
        rw [dif_neg hcond]
      rw [hstep]
      obtain ⟨⟨Lnew, hLn, hLnprop⟩, hcount⟩ := IH V L hVW hVC hLV
      refine ⟨⟨Lnew, hLn, ?_⟩, ?_⟩
      · intro C hC
        obtain ⟨hnd2, hlen2, p2, hp2mem, hrest⟩ := hLnprop C hC
        exact ⟨hnd2, hlen2, p2, List.mem_cons_of_mem _ hp2mem, hrest⟩
      · intro p2 hp2 hw2 hnv2 S hS
        rcases List.mem_cons.mp hp2 with rfl | hmem2
        · exact absurd ⟨hw2, hnv2⟩ hcond
        · exact hcount p2 hmem2 hw2 hnv2 S hS

theorem FindContoursBFS_props {img : GrayImage} {region : GoRect} :
    ∀ C ∈ FindContoursBFS img region, C.Nodup ∧ 50 < C.length ∧
      ∃ p, p ∈ scanCoords region ∧ IsWhite img p.1 p.2 ∧ (∀ q, q ∈ C ↔ Reaches img p q) := by
  obtain ⟨⟨Lnew, hsplit, hprops⟩, -⟩ := scan_foldl_spec img (scanCoords region) ∅ []
    (by simp) (by simp) (by simp)
  have hFC : FindContoursBFS img region = Lnew := by
    rw [← List.nil_append Lnew, ← hsplit]
    rfl
  intro C hC
  rw [hFC] at hC
  obtain ⟨hnd, hlen, p, hpmem, hpw, -, hCm⟩ := hprops C hC
  exact ⟨hnd, hlen, p, hpmem, hpw, hCm⟩

theorem FindContoursBFS_countP {img : GrayImage} {region : GoRect} {p : ℤ × ℤ}
    (hp : p ∈ scanCoords region) (hw : IsWhite img p.1 p.2) (S : Finset (ℤ × ℤ))
    (hS : ∀ q, q ∈ S ↔ Reaches img p q) :
    (50 < S.card →
      ((FindContoursBFS img region).countP fun C => decide (C.toFinset = S)) = 1) ∧
    (¬50 < S.card →
      ((FindContoursBFS img region).countP fun C => decide (C.toFinset = S)) = 0) := by
  obtain ⟨-, hcount⟩ := scan_foldl_spec img (scanCoords region) ∅ []
    (by simp) (by simp) (by simp)
  obtain ⟨h1, h2⟩ := hcount p hp hw (Finset.not_mem_empty p) S hS
  rw [List.countP_nil] at h1 h2
  constructor
  · intro hb
    have := h1 hb
    rw [show ((FindContoursBFS img region).countP fun C => decide (C.toFinset = S)) =
      (((scanCoords region).foldl (scanStep img) (∅, [])).2.countP
        fun C => decide (C.toFinset = S)) from rfl, this]
  · intro hb
    have := h2 hb
    rw [show ((FindContoursBFS img region).countP fun C => decide (C.toFinset = S)) =
      (((scanCoords region).foldl (scanStep img) (∅, [])).2.countP
        fun C => decide (C.toFinset = S)) from rfl, this]

theorem FindContoursBFS_exists_mem {img : GrayImage} {region : GoRect} {p : ℤ × ℤ}
    (hp : p ∈ scanCoords region) (hw : IsWhite img p.1 p.2) (S : Finset (ℤ × ℤ))
    (hS : ∀ q, q ∈ S ↔ Reaches img p q) (hbig : 50 < S.card) :
    ∃ C ∈ FindContoursBFS img region, C.toFinset = S := by
  have h1 := (FindContoursBFS_countP hp hw S hS).1 hbig
  have hpos : 0 < (FindContoursBFS img region).countP fun C => decide (C.toFinset = S) := by
    omega
  obtain ⟨C, hC, hpred⟩ := List.countP_pos.mp hpos
  exact ⟨C, hC, of_decide_eq_true hpred⟩

theorem FindContoursBFS_nil (img : GrayImage) (region : GoRect)
    (h : ∀ p ∈ scanCoords region, ¬IsWhite img p.1 p.2) :
    FindContoursBFS img region = [] := by
  have hfold : ∀ (todo : List (ℤ × ℤ)) (st : Finset (ℤ × ℤ) × List (List (ℤ × ℤ))),
      (∀ p ∈ todo, ¬IsWhite img p.1 p.2) → todo.foldl (scanStep img) st = st := by
    intro todo
    induction todo with
    | nil =>
      intro st h2
      rfl
    | cons p rest ih =>
      intro st h2
      rw [List.foldl_cons]
      have hstep : scanStep img st p = st := by
        unfold scanStep
        rw [dif_neg (fun hc => h2 p (List.mem_cons_self _ _) hc.1)]
      rw [hstep]
      exact ih _ fun q hq => h2 q (List.mem_cons_of_mem _ hq)
  have : ((scanCoords region).foldl (scanStep img) (∅, [])) = (∅, []) := hfold _ _ h
  rw [show FindContoursBFS img region =
    ((scanCoords region).foldl (scanStep img) (∅, [])).2 from rfl, this]

/-- C7: `FindContoursBFS` returns exactly the connected components of set
pixels meeting the scanned region that have more than 50 points: every
returned contour is duplicate-free, has more than 50 points and enumerates
the component of a scanned set pixel; the component of a scanned set pixel
appears exactly once when it has more than 50 points (so a 51-point
component is kept) and never when it has at most 50 (so a 50-point
component is discarded). -/
theorem findContoursBFS_exact (img : GrayImage) (region : GoRect) :
    (∀ C ∈ FindContoursBFS img region, C.Nodup ∧ 50 < C.length ∧
      ∃ p, p ∈ scanCoords region ∧ IsWhite img p.1 p.2 ∧ (∀ q, q ∈ C ↔ Reaches img p q)) ∧
    (∀ p ∈ scanCoords region, IsWhite img p.1 p.2 →
      ∀ S : Finset (ℤ × ℤ), (∀ q, q ∈ S ↔ Reaches img p q) →
        (50 < S.card →
          ((FindContoursBFS img region).countP fun C => decide (C.toFinset = S)) = 1) ∧
        (¬50 < S.card →
          ((FindContoursBFS img region).countP fun C => decide (C.toFinset = S)) = 0)) :=
  ⟨FindContoursBFS_props, fun p hp hw S hS => FindContoursBFS_countP hp hw S hS⟩

/-- Set pixels of the constant-255 one-pixel-wide column image. -/
theorem column_white (H : ℕ) (x y : ℤ) :
    IsWhite ⟨1, H, fun _ _ => 255⟩ x y ↔ x = 0 ∧ 0 ≤ y ∧ y < (H : ℤ) := by
  unfold IsWhite grayAt
  split_ifs with h
  · unfold GrayImage.inBounds at h
    dsimp only at h ⊢
    omega
  · unfold GrayImage.inBounds at h
    dsimp only at h ⊢
    omega

theorem column_step (H : ℕ) (w : ℤ) (hw : 0 ≤ w + 1 ∧ w + 1 < (H : ℤ)) :
    WStep ⟨1, H, fun _ _ => 255⟩ (0, w) (0, w + 1) := by
  constructor
  · dsimp only
    rw [column_white]
    omega
  · unfold Adjacent
    dsimp only
    rw [show ((0 : ℤ) - 0, w + 1 - w) = ((0 : ℤ), (1 : ℤ)) from by rw [Prod.mk.injEq]; omega]
    unfold bfsDirections
    exact List.mem_cons_self _ _

theorem column_reaches_up (H : ℕ) :
    ∀ (n : ℕ) (z : ℤ), 0 ≤ z → z + n < (H : ℤ) →
      Reaches ⟨1, H, fun _ _ => 255⟩ (0, z) (0, z + n) := by
  intro n
  induction n with
  | zero =>
    intro z hz hzn
    rw [show z + ((0 : ℕ) : ℤ) = z by omega]
    exact Relation.ReflTransGen.refl
  | succ m ih =>
    intro z hz hzn
    have hcast : z + ((m + 1 : ℕ) : ℤ) = (z + m) + 1 := by
      push_cast
      omega
    rw [hcast]
    have hm : Reaches ⟨1, H, fun _ _ => 255⟩ (0, z) (0, z + m) := by
      apply ih z hz
      push_cast at hzn ⊢
      omega
    refine Relation.ReflTransGen.tail hm (column_step H (z + m) ?_)
    push_cast at hzn ⊢
    omega

theorem column_reaches (H : ℕ) (y y' : ℤ) (hy : 0 ≤ y ∧ y < (H : ℤ))
    (hy' : 0 ≤ y' ∧ y' < (H : ℤ)) :
    Reaches ⟨1, H, fun _ _ => 255⟩ (0, y) (0, y') := by
  rcases le_total y y' with h | h
  · have := column_reaches_up H (y' - y).toNat y hy.1 (by omega)
    rw [show y + ((y' - y).toNat : ℤ) = y' by omega] at this
    exact this
  · have := column_reaches_up H (y - y').toNat y' hy'.1 (by omega)
    rw [show y' + ((y - y').toNat : ℤ) = y by omega] at this
    refine reaches_symm ?_ this
    rw [show ((0, y') : ℤ × ℤ).1 = 0 from rfl]
    rw [column_white]
    exact ⟨rfl, hy'⟩

theorem column_align (H : ℕ) (t : ℤ × ℤ)
    (ht : IsWhite ⟨1, H, fun _ _ => 255⟩ t.1 t.2) :
    ∀ q, q ∈ whiteFinset ⟨1, H, fun _ _ => 255⟩ ↔ Reaches ⟨1, H, fun _ _ => 255⟩ t q := by
  have ht2 := (column_white H t.1 t.2).mp ht
  have htp : t = ((0 : ℤ), t.2) := by
    rw [Prod.ext_iff]
    exact ⟨ht2.1, rfl⟩
  intro q
  constructor
  · intro hq
    have hqw : IsWhite ⟨1, H, fun _ _ => 255⟩ q.1 q.2 := mem_whiteFinset.mp hq
    have hq2 := (column_white H q.1 q.2).mp hqw
    have hqp : q = ((0 : ℤ), q.2) := by
      rw [Prod.ext_iff]
      exact ⟨hq2.1, rfl⟩
    rw [htp, hqp]
    exact column_reaches H t.2 q.2 ht2.2 hq2.2
  · intro hr
    exact mem_whiteFinset.mpr (reaches_white ht hr)

/-- Witness for `findContoursBFS_exact` on a 1 x 52 all-white column. -/
theorem findContoursBFS_exact_witness :
    ((FindContoursBFS ⟨1, 52, fun _ _ => 255⟩ ⟨0, 0, 1, 52⟩).countP
      fun C => decide (C.toFinset = whiteFinset ⟨1, 52, fun _ _ => 255⟩)) = 1 :=
  ((findContoursBFS_exact ⟨1, 52, fun _ _ => 255⟩ ⟨0, 0, 1, 52⟩).2 ((0 : ℤ), (0 : ℤ))
    (by decide) (by decide) (whiteFinset ⟨1, 52, fun _ _ => 255⟩)
    (column_align 52 ((0 : ℤ), (0 : ℤ)) (by decide))).1 (by decide)

/-- C6, counterexample: on a 1 x 60 image of constant value 75 every pixel
is non-zero, yet no pixel is treated as set (75 is not above 128) and
contour extraction returns no contour at all. -/
theorem isWhite_counterexample :
    grayAt ⟨1, 60, fun _ _ => 75⟩ 0 0 = 75 ∧ (75 : ℕ) ≠ 0 ∧
    ¬IsWhite ⟨1, 60, fun _ _ => 75⟩ 0 0 ∧
    FindContoursBFS ⟨1, 60, fun _ _ => 75⟩ ⟨0, 0, 1, 60⟩ = [] :=
  ⟨by decide, by decide, by decide, FindContoursBFS_nil _ _ (by decide)⟩

/-- C6, amended: a pixel is treated as a set (foreground) pixel iff its
value exceeds 128 — not iff it is non-zero; consequently every point of
every contour returned by `FindContoursBFS` reads strictly above 128
(non-zero values up to 128, such as the weak marker 75, are background). -/
theorem isWhite_threshold :
    (∀ (img : GrayImage) (x y : ℤ), IsWhite img x y ↔ 128 < grayAt img x y) ∧
    (∀ (img : GrayImage) (region : GoRect) (C : List (ℤ × ℤ)) (p : ℤ × ℤ),
      C ∈ FindContoursBFS img region → p ∈ C → 128 < grayAt img p.1 p.2) := by
  constructor
  · intro img x y
    exact Iff.rfl
  · intro img region C p hC hp
    obtain ⟨-, -, p0, -, hp0w, hCm⟩ := FindContoursBFS_props C hC
    exact reaches_white hp0w ((hCm p).mp hp)

/-- Witness for `isWhite_threshold`: a contour point of the all-white
column image reads above 128. -/
theorem isWhite_threshold_witness : 128 < grayAt ⟨1, 52, fun _ _ => 255⟩ 0 0 := by
  obtain ⟨C, hC, hCS⟩ := @FindContoursBFS_exists_mem ⟨1, 52, fun _ _ => 255⟩ ⟨0, 0, 1, 52⟩
    ((0 : ℤ), (0 : ℤ)) (by decide) (by decide) (whiteFinset ⟨1, 52, fun _ _ => 255⟩)
    (column_align 52 ((0 : ℤ), (0 : ℤ)) (by decide)) (by decide)
  refine isWhite_threshold.2 ⟨1, 52, fun _ _ => 255⟩ ⟨0, 0, 1, 52⟩ C ((0 : ℤ), (0 : ℤ)) hC ?_
  rw [← List.mem_toFinset, hCS]
  decide

theorem tileContours_props (img : GrayImage) (bounds : GoRect) (nw : ℕ) :
    ∀ C ∈ TileContours img bounds nw, C.Nodup ∧ 50 < C.length ∧
      ∃ p i, i < nw ∧
        p ∈ scanCoords (contourBandRect bounds (chunkSize (bounds.maxY - bounds.minY) nw) i) ∧
        IsWhite img p.1 p.2 ∧ (∀ q, q ∈ C ↔ Reaches img p q) := by
  intro C hC
  unfold TileContours at hC
  rw [List.mem_flatMap] at hC
  obtain ⟨i, hi, hCi⟩ := hC
  obtain ⟨hnd, hlen, p, hscan, hw, hmemC⟩ := FindContoursBFS_props C hCi
  exact ⟨hnd, hlen, p, i, List.mem_range.mp hi, hscan, hw, hmemC⟩

theorem tileContours_countP (img : GrayImage) (bounds : GoRect) (nw : ℕ)
    (p : ℤ × ℤ) (hpw : IsWhite img p.1 p.2) (S : Finset (ℤ × ℤ))
    (hS : ∀ q, q ∈ S ↔ Reaches img p q) :
    (50 < S.card →
      ((TileContours img bounds nw).countP fun C => decide (C.toFinset = S)) =
        ((List.range nw).countP fun i => decide (∃ q ∈ S, q ∈ scanCoords
          (contourBandRect bounds (chunkSize (bounds.maxY - bounds.minY) nw) i)))) ∧
    (¬50 < S.card →
      ((TileContours img bounds nw).countP fun C => decide (C.toFinset = S)) = 0) := by
  have key : ∀ (il : List ℕ),
      (50 < S.card →
        ((il.flatMap fun i => FindContoursBFS img
            (contourBandRect bounds (chunkSize (bounds.maxY - bounds.minY) nw) i)).countP
          (fun C => decide (C.toFinset = S))) =
          (il.countP (fun i => decide (∃ q ∈ S, q ∈ scanCoords
            (contourBandRect bounds (chunkSize (bounds.maxY - bounds.minY) nw) i))))) ∧
      (¬50 < S.card →
        ((il.flatMap fun i => FindContoursBFS img
            (contourBandRect bounds (chunkSize (bounds.maxY - bounds.minY) nw) i)).countP
          (fun C => decide (C.toFinset = S))) = 0) := by
    intro il
    induction il with
    | nil => simp
    | cons i it ih =>
      rw [List.flatMap_cons, List.countP_append, List.countP_cons]
      by_cases hmeet : ∃ q ∈ S, q ∈ scanCoords
          (contourBandRect bounds (chunkSize (bounds.maxY - bounds.minY) nw) i)
      · obtain ⟨q0, hq0S, hq0scan⟩ := hmeet
        have hq0r : Reaches img p q0 := (hS q0).mp hq0S
        have hq0w : IsWhite img q0.1 q0.2 := reaches_white hpw hq0r
        have hS0 : ∀ r, r ∈ S ↔ Reaches img q0 r := fun r =>
          (hS r).trans (reaches_congr hpw hq0r r).symm
        obtain ⟨hc1, hc0⟩ := FindContoursBFS_countP hq0scan hq0w S hS0
        have hpredT : (decide (∃ q ∈ S, q ∈ scanCoords
            (contourBandRect bounds (chunkSize (bounds.maxY - bounds.minY) nw) i))) = true := by
          rw [decide_eq_true_eq]
          exact ⟨q0, hq0S, hq0scan⟩
        rw [hpredT]
        constructor
        · intro hbig
          rw [hc1 hbig, (ih.1) hbig, if_pos rfl]
          omega
        · intro hsmall
          rw [hc0 hsmall, (ih.2) hsmall]
      · have hband0 : ((FindContoursBFS img
            (contourBandRect bounds (chunkSize (bounds.maxY - bounds.minY) nw) i)).countP
            fun C => decide (C.toFinset = S)) = 0 := by
          rw [List.countP_eq_zero]
          intro C hC
          obtain ⟨-, -, p2, hp2scan, -, hCm⟩ := FindContoursBFS_props C hC
          rw [decide_eq_true_eq]
          intro hCS
          apply hmeet
          refine ⟨p2, ?_, hp2scan⟩
          rw [← hCS]
          exact List.mem_toFinset.mpr ((hCm p2).mpr Relation.ReflTransGen.refl)
        have hpredF : (decide (∃ q ∈ S, q ∈ scanCoords
            (contourBandRect bounds (chunkSize (bounds.maxY - bounds.minY) nw) i))) = false := by
          rw [decide_eq_false_iff_not]
          exact hmeet
        rw [hpredF, hband0]
        constructor
        · intro hbig
          rw [(ih.1) hbig, if_neg (by decide : ¬false = true)]
          omega
        · intro hsmall
          rw [(ih.2) hsmall]
  exact key (List.range nw)

/-- C5, amended: Tile-Contours runs `FindContoursBFS` once per
non-overlapping band with a fresh visited map, so a component with more
than 50 points appears in the flattened result once per band whose scan
region it meets — each occurrence is the entire component, not the
fragment inside the band, because the BFS expansion ignores the band
rectangle — and a component with at most 50 points never appears. -/
theorem tileContours_seam (img : GrayImage) (bounds : GoRect) (nw : ℕ)
    (p : ℤ × ℤ) (hpw : IsWhite img p.1 p.2) (S : Finset (ℤ × ℤ))
    (hS : ∀ q, q ∈ S ↔ Reaches img p q) :
    (50 < S.card →
      ((TileContours img bounds nw).countP fun C => decide (C.toFinset = S)) =
        ((List.range nw).countP fun i => decide (∃ q ∈ S, q ∈ scanCoords
          (contourBandRect bounds (chunkSize (bounds.maxY - bounds.minY) nw) i)))) ∧
    (¬50 < S.card →
      ((TileContours img bounds nw).countP fun C => decide (C.toFinset = S)) = 0) ∧
    (∀ C ∈ TileContours img bounds nw, C.Nodup ∧ 50 < C.length ∧
      ∃ p2 i, i < nw ∧
        p2 ∈ scanCoords (contourBandRect bounds (chunkSize (bounds.maxY - bounds.minY) nw) i) ∧
        IsWhite img p2.1 p2.2 ∧ (∀ q, q ∈ C ↔ Reaches img p2 q)) := by
  obtain ⟨h1, h2⟩ := tileContours_countP img bounds nw p hpw S hS
  exact ⟨h1, h2, tileContours_props img bounds nw⟩

/-- Witness for `tileContours_seam` on the 1 x 52 all-white column split
into two bands. -/
theorem tileContours_seam_witness :
    (50 < (whiteFinset ⟨1, 52, fun _ _ => 255⟩).card →
      ((TileContours ⟨1, 52, fun _ _ => 255⟩ ⟨0, 0, 1, 52⟩ 2).countP
        fun C => decide (C.toFinset = whiteFinset ⟨1, 52, fun _ _ => 255⟩)) =
        ((List.range 2).countP fun i => decide
          (∃ q ∈ whiteFinset ⟨1, 52, fun _ _ => 255⟩, q ∈ scanCoords
            (contourBandRect ⟨0, 0, 1, 52⟩ (chunkSize 52 2) i)))) ∧
    (¬50 < (whiteFinset ⟨1, 52, fun _ _ => 255⟩).card →
      ((TileContours ⟨1, 52, fun _ _ => 255⟩ ⟨0, 0, 1, 52⟩ 2).countP
        fun C => decide (C.toFinset = whiteFinset ⟨1, 52, fun _ _ => 255⟩)) = 0) ∧
    (∀ C ∈ TileContours ⟨1, 52, fun _ _ => 255⟩ ⟨0, 0, 1, 52⟩ 2,
      C.Nodup ∧ 50 < C.length ∧
      ∃ p2 i, i < 2 ∧
        p2 ∈ scanCoords (contourBandRect ⟨0, 0, 1, 52⟩ (chunkSize 52 2) i) ∧
        IsWhite ⟨1, 52, fun _ _ => 255⟩ p2.1 p2.2 ∧
        (∀ q, q ∈ C ↔ Reaches ⟨1, 52, fun _ _ => 255⟩ p2 q)) :=
  tileContours_seam ⟨1, 52, fun _ _ => 255⟩ ⟨0, 0, 1, 52⟩ 2 ((0 : ℤ), (0 : ℤ)) (by decide)
    (whiteFinset ⟨1, 52, fun _ _ => 255⟩) (column_align 52 ((0 : ℤ), (0 : ℤ)) (by decide))

/-- C5, counterexample: on a 1 x 52 all-white column split into two bands,
the 52-point component crossing the seam appears twice in the flattened
result, but each occurrence is the full 52-point component — containing
both the top pixel `(0, 0)` and the bottom pixel `(0, 51)` — not one
fragment per band; and a 10-point component lying entirely inside the first
band of a 1 x 40 image appears zero times, not exactly once. -/
theorem tileContours_counterexample :
    ((TileContours ⟨1, 52, fun _ _ => 255⟩ ⟨0, 0, 1, 52⟩ 2).countP
      fun C => decide (C.toFinset = whiteFinset ⟨1, 52, fun _ _ => 255⟩)) = 2 ∧
    (∀ C ∈ TileContours ⟨1, 52, fun _ _ => 255⟩ ⟨0, 0, 1, 52⟩ 2,
      C.length = 52 ∧ ((0 : ℤ), (0 : ℤ)) ∈ C ∧ ((0 : ℤ), (51 : ℤ)) ∈ C) ∧
    TileContours ⟨1, 40, fun x y => if y < 10 then 255 else 0⟩ ⟨0, 0, 1, 40⟩ 2 = [] := by
  refine ⟨?_, ?_, ?_⟩
  · have h := (tileContours_countP ⟨1, 52, fun _ _ => 255⟩ ⟨0, 0, 1, 52⟩ 2
      ((0 : ℤ), (0 : ℤ)) (by decide) (whiteFinset ⟨1, 52, fun _ _ => 255⟩)
      (column_align 52 ((0 : ℤ), (0 : ℤ)) (by decide))).1 (by decide)
    rw [h]
    decide
  · intro C hC
    obtain ⟨hnd, -, p2, i, -, -, hp2w, hCm⟩ :=
      tileContours_props ⟨1, 52, fun _ _ => 255⟩ ⟨0, 0, 1, 52⟩ 2 C hC
    have halign := column_align 52 p2 hp2w
    have hmem : ∀ q, q ∈ C ↔ q ∈ whiteFinset ⟨1, 52, fun _ _ => 255⟩ := fun q =>
      (hCm q).trans (halign q).symm
    have hset : C.toFinset = whiteFinset ⟨1, 52, fun _ _ => 255⟩ := by
      ext q
      rw [List.mem_toFinset]
      exact hmem q
    refine ⟨?_, (hmem _).mpr (by decide), (hmem _).mpr (by decide)⟩
    rw [← List.toFinset_card_of_nodup hnd, hset]
    decide
  · rw [List.eq_nil_iff_forall_not_mem]
    intro C hC
    obtain ⟨hnd, hlen, p2, i, -, -, hp2w, hCm⟩ :=
      tileContours_props ⟨1, 40, fun x y => if y < 10 then 255 else 0⟩ ⟨0, 0, 1, 40⟩ 2 C hC
    have hsub : C.toFinset ⊆ whiteFinset ⟨1, 40, fun x y => if y < 10 then 255 else 0⟩ := by
      intro q hq
      have hqr : Reaches ⟨1, 40, fun x y => if y < 10 then 255 else 0⟩ p2 q :=
        (hCm q).mp (List.mem_toFinset.mp hq)
      have hqw := reaches_white hp2w hqr
      exact mem_whiteFinset.mpr hqw
    have hcards : C.toFinset.card ≤ 10 := by
      have h40 : (whiteFinset ⟨1, 40, fun x y => if y < 10 then 255 else 0⟩).card = 10 := by
        decide
      have := Finset.card_le_card hsub
      omega
    rw [List.toFinset_card_of_nodup hnd] at hcards
    omega

theorem polygonArea_nonneg (ps : List (ℤ × ℤ)) : 0 ≤ polygonArea ps := by
  unfold polygonArea
  positivity

theorem polygonArea_nil : polygonArea ([] : List (ℤ × ℤ)) = 0 := by
  have h : polygonAreaSum ([] : List (ℤ × ℤ)) = 0 := rfl
  unfold polygonArea
  rw [h]
  norm_num

theorem findQuadrilateral_fold :
    ∀ (cs : List (List (ℤ × ℤ))) (acc : List (ℤ × ℤ) × ℚ),
      polygonArea acc.1 = acc.2 → 0 ≤ acc.2 →
      (cs.foldl (fun acc c => if acc.2 < polygonArea c then (c, polygonArea c) else acc)
        acc).2 = (cs.map polygonArea).foldl max acc.2 ∧
      polygonArea (cs.foldl (fun acc c => if acc.2 < polygonArea c then (c, polygonArea c)
        else acc) acc).1 =
        (cs.foldl (fun acc c => if acc.2 < polygonArea c then (c, polygonArea c) else acc)
          acc).2 ∧
      0 ≤ (cs.foldl (fun acc c => if acc.2 < polygonArea c then (c, polygonArea c) else acc)
        acc).2 ∧
      ((cs.foldl (fun acc c => if acc.2 < polygonArea c then (c, polygonArea c) else acc)
        acc).2 = 0 ↔ acc.2 = 0 ∧ ∀ c ∈ cs, polygonArea c = 0) := by
  intro cs
  induction cs with
  | nil =>
    intro acc hacc1 hacc2
    exact ⟨rfl, hacc1, hacc2, by simp⟩
  | cons c ct ih =>
    intro acc hacc1 hacc2
    rw [List.foldl_cons, List.map_cons, List.foldl_cons]
    by_cases hlt : acc.2 < polygonArea c
    · rw [if_pos hlt]
      have hmax : max acc.2 (polygonArea c) = polygonArea c := max_eq_right (le_of_lt hlt)
      obtain ⟨h1, h2, h3, h4⟩ := ih (c, polygonArea c) rfl (polygonArea_nonneg c)
      refine ⟨by rw [h1, hmax], h2, h3, ?_⟩
      rw [h4]
      have hpos : 0 < polygonArea c := lt_of_le_of_lt hacc2 hlt
      constructor
      · rintro ⟨h5, -⟩
        exfalso
        rw [show ((c, polygonArea c) : List (ℤ × ℤ) × ℚ).2 = polygonArea c from rfl] at h5
        linarith
      · rintro ⟨-, h6⟩
        exfalso
        have := h6 c (List.mem_cons_self _ _)
        linarith
    · rw [if_neg hlt]
      have hmax : max acc.2 (polygonArea c) = acc.2 := max_eq_left (not_lt.mp hlt)
      obtain ⟨h1, h2, h3, h4⟩ := ih acc hacc1 hacc2
      refine ⟨by rw [h1, hmax], h2, h3, ?_⟩
      rw [h4]
      constructor
      · rintro ⟨h5, h6⟩
        refine ⟨h5, ?_⟩
        intro d hd
        rcases List.mem_cons.mp hd with rfl | hd2
        · have hle := not_lt.mp hlt
          have hnn := polygonArea_nonneg d
          linarith
        · exact h6 d hd2
      · rintro ⟨h5, h6⟩
        exact ⟨h5, fun d hd => h6 d (List.mem_cons_of_mem _ hd)⟩

/-- C8: `FindQuadrilateral` returns the maximum shoelace area over the list
together with a contour attaining it; the area is never negative and is 0
exactly when the list is empty or every contour has zero area. -/
theorem findQuadrilateral_max (cs : List (List (ℤ × ℤ))) :
    (FindQuadrilateral cs).2 = (cs.map polygonArea).foldl max 0 ∧
    polygonArea (FindQuadrilateral cs).1 = (FindQuadrilateral cs).2 ∧
    0 ≤ (FindQuadrilateral cs).2 ∧
    ((FindQuadrilateral cs).2 = 0 ↔ cs = [] ∨ ∀ c ∈ cs, polygonArea c = 0) := by
  obtain ⟨h1, h2, h3, h4⟩ := findQuadrilateral_fold cs ([], 0) polygonArea_nil le_rfl
  refine ⟨h1, h2, h3, ?_⟩
  rw [show (FindQuadrilateral cs).2 = (cs.foldl
    (fun acc c => if acc.2 < polygonArea c then (c, polygonArea c) else acc) ([], 0)).2
    from rfl, h4]
  constructor
  · rintro ⟨-, h⟩
    exact Or.inr h
  · rintro (rfl | h)
    · exact ⟨rfl, fun c hc => absurd hc (List.not_mem_nil _)⟩
    · exact ⟨rfl, h⟩

/-- Witness for `findQuadrilateral_max` on the empty contour list. -/
theorem findQuadrilateral_max_witness :
    (FindQuadrilateral []).2 = (([] : List (List (ℤ × ℤ))).map polygonArea).foldl max 0 ∧
    polygonArea (FindQuadrilateral []).1 = (FindQuadrilateral []).2 ∧
    0 ≤ (FindQuadrilateral []).2 ∧
    ((FindQuadrilateral []).2 = 0 ↔ ([] : List (List (ℤ × ℤ))) = [] ∨
      ∀ c ∈ ([] : List (List (ℤ × ℤ))), polygonArea c = 0) :=
  findQuadrilateral_max []

/-- C9: every contour point produced by the BFS stage lies inside the image
bounds; the contour chosen by `FindQuadrilateral` is nil or one of its
inputs; and for a chosen contour whose points lie inside `[0,W) x [0,H)`,
the crop rectangle built by `FindCorner` from the centre `(W/2, H/2)` lies
inside `[0,W) x [0,H)` — also when the contour is empty. -/
theorem crop_inside_bounds :
    (∀ (img : GrayImage) (region : GoRect) (C : List (ℤ × ℤ)) (p : ℤ × ℤ),
      C ∈ FindContoursBFS img region → p ∈ C → img.inBounds p.1 p.2) ∧
    (∀ cs : List (List (ℤ × ℤ)),
      (FindQuadrilateral cs).1 = [] ∨ (FindQuadrilateral cs).1 ∈ cs) ∧
    (∀ (W H : ℕ) (contour : List (ℤ × ℤ)),
      (∀ p ∈ contour, 0 ≤ p.1 ∧ p.1 < (W : ℤ) ∧ 0 ≤ p.2 ∧ p.2 < (H : ℤ)) →
      ∀ x y : ℤ,
        (cropRect (FindCorner contour (((W / 2 : ℕ) : ℤ), ((H / 2 : ℕ) : ℤ)))).mem x y →
        0 ≤ x ∧ x < (W : ℤ) ∧ 0 ≤ y ∧ y < (H : ℤ)) := by
  refine ⟨?_, ?_, ?_⟩
  · intro img region C p hC hp
    obtain ⟨-, -, p0, -, hp0w, hCm⟩ := FindContoursBFS_props C hC
    exact IsWhite_inBounds (reaches_white hp0w ((hCm p).mp hp))
  · have key : ∀ (cs : List (List (ℤ × ℤ))) (acc : List (ℤ × ℤ) × ℚ),
        (cs.foldl (fun acc c => if acc.2 < polygonArea c then (c, polygonArea c) else acc)
          acc).1 = acc.1 ∨
        (cs.foldl (fun acc c => if acc.2 < polygonArea c then (c, polygonArea c) else acc)
          acc).1 ∈ cs := by
      intro cs
      induction cs with
      | nil =>
        intro acc
        exact Or.inl rfl
      | cons c ct ih =>
        intro acc
        rw [List.foldl_cons]
        by_cases hlt : acc.2 < polygonArea c
        · rw [if_pos hlt]
          rcases ih (c, polygonArea c) with h | h
          · exact Or.inr (by rw [h]; exact List.mem_cons_self _ _)
          · exact Or.inr (List.mem_cons_of_mem _ h)
        · rw [if_neg hlt]
          rcases ih acc with h | h
          · exact Or.inl h
          · exact Or.inr (List.mem_cons_of_mem _ h)
    intro cs
    exact key cs ([], 0)
  · intro W H contour hpts x y hmem
    have hinv : ∀ (l : List (ℤ × ℤ)) (ac : (ℤ × ℤ) × (ℤ × ℤ)),
        (∀ p ∈ l, 0 ≤ p.1 ∧ p.1 < (W : ℤ) ∧ 0 ≤ p.2 ∧ p.2 < (H : ℤ)) →
        0 ≤ ac.1.1 → ac.1.1 ≤ (W : ℤ) → 0 ≤ ac.1.2 → ac.1.2 ≤ (H : ℤ) →
        0 ≤ ac.2.1 → ac.2.1 ≤ (W : ℤ) → 0 ≤ ac.2.2 → ac.2.2 ≤ (H : ℤ) →
        0 ≤ (l.foldl (fun (ac : (ℤ × ℤ) × (ℤ × ℤ)) p =>
            ((min ac.1.1 p.1, min ac.1.2 p.2), (max ac.2.1 p.1, max ac.2.2 p.2))) ac).1.1 ∧
        (l.foldl (fun (ac : (ℤ × ℤ) × (ℤ × ℤ)) p =>
            ((min ac.1.1 p.1, min ac.1.2 p.2), (max ac.2.1 p.1, max ac.2.2 p.2))) ac).1.1
          ≤ (W : ℤ) ∧
        0 ≤ (l.foldl (fun (ac : (ℤ × ℤ) × (ℤ × ℤ)) p =>
            ((min ac.1.1 p.1, min ac.1.2 p.2), (max ac.2.1 p.1, max ac.2.2 p.2))) ac).1.2 ∧
        (l.foldl (fun (ac : (ℤ × ℤ) × (ℤ × ℤ)) p =>
            ((min ac.1.1 p.1, min ac.1.2 p.2), (max ac.2.1 p.1, max ac.2.2 p.2))) ac).1.2
          ≤ (H : ℤ) ∧
        0 ≤ (l.foldl (fun (ac : (ℤ × ℤ) × (ℤ × ℤ)) p =>
            ((min ac.1.1 p.1, min ac.1.2 p.2), (max ac.2.1 p.1, max ac.2.2 p.2))) ac).2.1 ∧
        (l.foldl (fun (ac : (ℤ × ℤ) × (ℤ × ℤ)) p =>
            ((min ac.1.1 p.1, min ac.1.2 p.2), (max ac.2.1 p.1, max ac.2.2 p.2))) ac).2.1
          ≤ (W : ℤ) ∧
        0 ≤ (l.foldl (fun (ac : (ℤ × ℤ) × (ℤ × ℤ)) p =>
            ((min ac.1.1 p.1, min ac.1.2 p.2), (max ac.2.1 p.1, max ac.2.2 p.2))) ac).2.2 ∧
        (l.foldl (fun (ac : (ℤ × ℤ) × (ℤ × ℤ)) p =>
            ((min ac.1.1 p.1, min ac.1.2 p.2), (max ac.2.1 p.1, max ac.2.2 p.2))) ac).2.2
          ≤ (H : ℤ) := by
      intro l
      induction l with
      | nil =>
        intro ac hl h1 h2 h3 h4 h5 h6 h7 h8
        exact ⟨h1, h2, h3, h4, h5, h6, h7, h8⟩
      | cons p pt ih =>
        intro ac hl h1 h2 h3 h4 h5 h6 h7 h8
        rw [List.foldl_cons]
        have hp := hl p (List.mem_cons_self _ _)
        refine ih _ (fun q hq => hl q (List.mem_cons_of_mem _ hq))
          ?_ ?_ ?_ ?_ ?_ ?_ ?_ ?_ <;> dsimp only <;> omega
    have hc := hinv contour (((((W / 2 : ℕ) : ℤ), ((H / 2 : ℕ) : ℤ)) : ℤ × ℤ),
        ((((W / 2 : ℕ) : ℤ), ((H / 2 : ℕ) : ℤ)) : ℤ × ℤ)) hpts
      (by positivity) (by dsimp only; exact_mod_cast Nat.div_le_self W 2)
      (by positivity) (by dsimp only; exact_mod_cast Nat.div_le_self H 2)
      (by positivity) (by dsimp only; exact_mod_cast Nat.div_le_self W 2)
      (by positivity) (by dsimp only; exact_mod_cast Nat.div_le_self H 2)
    obtain ⟨h1, h2, h3, h4, h5, h6, h7, h8⟩ := hc
    have hmem2 : (mkRect
        (contour.foldl (fun (ac : (ℤ × ℤ) × (ℤ × ℤ)) p =>
          ((min ac.1.1 p.1, min ac.1.2 p.2), (max ac.2.1 p.1, max ac.2.2 p.2)))
          (((((W / 2 : ℕ) : ℤ), ((H / 2 : ℕ) : ℤ)) : ℤ × ℤ),
           ((((W / 2 : ℕ) : ℤ), ((H / 2 : ℕ) : ℤ)) : ℤ × ℤ))).1.1
        (contour.foldl (fun (ac : (ℤ × ℤ) × (ℤ × ℤ)) p =>
          ((min ac.1.1 p.1, min ac.1.2 p.2), (max ac.2.1 p.1, max ac.2.2 p.2)))
          (((((W / 2 : ℕ) : ℤ), ((H / 2 : ℕ) : ℤ)) : ℤ × ℤ),
           ((((W / 2 : ℕ) : ℤ), ((H / 2 : ℕ) : ℤ)) : ℤ × ℤ))).1.2
        (contour.foldl (fun (ac : (ℤ × ℤ) × (ℤ × ℤ)) p =>
          ((min ac.1.1 p.1, min ac.1.2 p.2), (max ac.2.1 p.1, max ac.2.2 p.2)))
          (((((W / 2 : ℕ) : ℤ), ((H / 2 : ℕ) : ℤ)) : ℤ × ℤ),
           ((((W / 2 : ℕ) : ℤ), ((H / 2 : ℕ) : ℤ)) : ℤ × ℤ))).2.1
        (contour.foldl (fun (ac : (ℤ × ℤ) × (ℤ × ℤ)) p =>
          ((min ac.1.1 p.1, min ac.1.2 p.2), (max ac.2.1 p.1, max ac.2.2 p.2)))
          (((((W / 2 : ℕ) : ℤ), ((H / 2 : ℕ) : ℤ)) : ℤ × ℤ),
           ((((W / 2 : ℕ) : ℤ), ((H / 2 : ℕ) : ℤ)) : ℤ × ℤ))).2.2).mem x y := hmem
    unfold mkRect GoRect.mem at hmem2
    dsimp only at hmem2
    split_ifs at hmem2 <;> omega

/-- Witness for `crop_inside_bounds`: a one-point contour in a 4 x 4 image
yields a crop rectangle containing `(1, 1)`, inside the bounds. -/
theorem crop_inside_bounds_witness :
    0 ≤ (1 : ℤ) ∧ (1 : ℤ) < ((4 : ℕ) : ℤ) ∧ 0 ≤ (1 : ℤ) ∧ (1 : ℤ) < ((4 : ℕ) : ℤ) :=
  crop_inside_bounds.2.2 4 4 [((0 : ℤ), (0 : ℤ))] (by decide) 1 1 (by decide)

end ELP
